import Mathlib

/-!
# Package linearfunction (efreitasn/go-mat)

A shallow embedding of src/linearfunction/linearfunction.go.

* Go strings are modelled as lists of characters (List Char); the package only
  inspects ASCII characters, so bytes and runes coincide on every string the
  patterns accept.
* The three compiled patterns are embedded as syntax trees (Rx) and run by a
  backtracking matcher that lists every way of matching in priority order; its
  first entry is the match Go reports (leftmost-first semantics of package regexp).
* Numbers come in two embeddings. NewFromString, ParseFloat and the LinearFunction
  methods over the rationals are the package in exact arithmetic (no rounding); they
  carry the properties about strings, panics and exact arithmetic. The namespace
  Float64 holds the same functions over F64, a model of IEEE 754 binary64 with
  round-to-nearest-even, gradual underflow, signed zeros, infinities and NaN; it
  carries the properties about the float64 values the code returns.
* A panic is modelled by an error result.
-/

namespace Linearfunction

/-! ## Regular expressions (the fragment of package regexp used by the source) -/

/-- Syntax of the regular expressions that occur in the source. Repetition is only
ever applied to a character class in the three patterns, so star takes a class. -/
inductive Rx where
  | cls (p : Char → Bool)
  | seq (a b : Rx)
  | alt (a b : Rx)
  | opt (a : Rx)
  | star (p : Char → Bool)
  | cap (i : Nat) (a : Rx)
  | bol
  | eol

/-- Submatches: entry i is the text of capture group i (entry 0 the whole match);
a group that did not take part holds the empty string, as FindStringSubmatch reports it. -/
abbrev Caps := List (List Char)

/-- Matcher state: the input still to be read and the groups captured so far. -/
abbrev St := List Char × Caps

/-- Greedy repetition of a character class: the outcomes, longest first. -/
def starRun (p : Char → Bool) (g : Caps) : List Char → List St
  | [] => [([], g)]
  | c :: s => if p c then starRun p g s ++ [(c :: s, g)] else [(c :: s, g)]

/-- Backtracking matcher. Run r from a state and list every resulting state in the
order a backtracking search visits them (n is the length of the whole text, which
the start anchor needs). -/
def Rx.run (n : Nat) : Rx → St → List St
  | .cls p, st =>
    match st.1 with
    | [] => []
    | c :: t => if p c then [(t, st.2)] else []
  | .seq a b, st => (Rx.run n a st).flatMap (Rx.run n b)
  | .alt a b, st => Rx.run n a st ++ Rx.run n b st
  | .opt a, st => Rx.run n a st ++ [st]
  | .star p, st => starRun p st.2 st.1
  | .cap i a, st =>
    (Rx.run n a st).map fun e => (e.1, e.2.set i (st.1.take (st.1.length - e.1.length)))
  | .bol, st => if st.1.length = n then [st] else []
  | .eol, st =>
    match st.1 with
    | [] => [st]
    | _ :: _ => []

/-- Try to match r at the start of s, a suffix of a text of length n; k is the number
of capture groups. The first outcome of the backtracking search wins. -/
def matchAt (r : Rx) (k n : Nat) (s : List Char) : Option Caps :=
  match Rx.run n r (s, List.replicate (k + 1) []) with
  | [] => none
  | e :: _ => some (e.2.set 0 (s.take (s.length - e.1.length)))

/-- Unanchored search: the leftmost position at which r matches. -/
def search (r : Rx) (k n : Nat) : List Char → Option Caps
  | [] => matchAt r k n []
  | c :: s =>
    match matchAt r k n (c :: s) with
    | some g => some g
    | none => search r k n s

/-- A compiled pattern: its syntax tree and its number of capture groups. -/
structure Regexp where
  rx : Rx
  numSubexp : Nat

/-- Go: (*Regexp).FindStringSubmatch. The empty list stands for nil (no match). -/
def Regexp.FindStringSubmatch (re : Regexp) (s : List Char) : List (List Char) :=
  (search re.rx re.numSubexp s.length s).getD []

/-- Go: (*Regexp).MatchString. -/
def Regexp.MatchString (re : Regexp) (s : List Char) : Bool :=
  (search re.rx re.numSubexp s.length s).isSome

/-- Class [0-9]. -/
def digit (c : Char) : Bool := decide ('0' ≤ c) && decide (c ≤ '9')

/-- Class [1-9]. -/
def nonzero (c : Char) : Bool := decide ('1' ≤ c) && decide (c ≤ '9')

/-- A literal character. -/
def lit (c : Char) : Rx := .cls (fun d => d == c)

/-- The counted repetition {1,} of a class. -/
def plus (p : Char → Bool) : Rx := .seq (.cls p) (.star p)

/-- The alternation \+|- . -/
def sign : Rx := .alt (lit '+') (lit '-')

/-- Sub-pattern [0-9]{1,}[0-9]*(?:\.[0-9]{1,})? (the constant of linearFnStrRx and of
interceptRx). -/
def number : Rx :=
  .seq (plus digit) (.seq (.star digit) (.opt (.seq (lit '.') (plus digit))))

/-- Sub-pattern (?:(?:(?:[1-9]{1,}[0-9]*)?x)|(?:[0-9]{1,}\.[0-9]{1,}x)) (the variable
term of linearFnStrRx, which has no capture groups). -/
def term : Rx :=
  .alt (.seq (.opt (.seq (plus nonzero) (.star digit))) (lit 'x'))
       (.seq (plus digit) (.seq (lit '.') (.seq (plus digit) (lit 'x'))))

/-- The slope-first alternative of linearFnStrRx:
(?:(?:\+|-)?TERM(?:(?:\+|-)NUMBER)?). -/
def slopeFirst : Rx := .seq (.opt sign) (.seq term (.opt (.seq sign number)))

/-- The intercept-first alternative of linearFnStrRx:
(?:(?:\+|-)?NUMBER(?:\+|-)TERM). -/
def interceptFirst : Rx := .seq (.opt sign) (.seq number (.seq sign term))

/-- Go: var linearFnStrRx = regexp.MustCompile(...), anchored at both ends. -/
def linearFnStrRx : Regexp :=
  ⟨.seq .bol (.seq (.alt slopeFirst interceptFirst) .eol), 0⟩

/-- Sub-pattern (?:([1-9]{1,}[0-9]*)?x) of slopeRx, with capture group 2. -/
def slopeIntAlt : Rx := .seq (.opt (.cap 2 (.seq (plus nonzero) (.star digit)))) (lit 'x')

/-- Sub-pattern (?:([0-9]{1,}\.[0-9]{1,})x) of slopeRx, with capture group 3. -/
def slopeDecAlt : Rx :=
  .seq (.cap 3 (.seq (plus digit) (.seq (lit '.') (plus digit)))) (lit 'x')

/-- Go: var slopeRx, the pattern
(\+|-)?(?:(?:([1-9]{1,}[0-9]*)?x)|(?:([0-9]{1,}\.[0-9]{1,})x)). -/
def slopeRx : Regexp :=
  ⟨.seq (.opt (.cap 1 sign)) (.alt slopeIntAlt slopeDecAlt), 3⟩

/-- Go: var interceptRx, the pattern (\+|-)?([0-9]{1,}[0-9]*(?:\.[0-9]{1,})?). -/
def interceptRx : Regexp :=
  ⟨.seq (.opt (.cap 1 sign)) (.cap 2 number), 2⟩

/-! ## Library functions used by the source -/

/-- Scan of strings.ReplaceAll for a non-empty old: skip counts the characters of a
just-found occurrence that are still to be dropped. -/
def replaceGo (old new : List Char) : Nat → List Char → List Char
  | _, [] => []
  | skip + 1, _ :: t => replaceGo old new skip t
  | 0, c :: t =>
    if old.isPrefixOf (c :: t) then new ++ replaceGo old new (old.length - 1) t
    else c :: replaceGo old new 0 t

/-- Go: strings.ReplaceAll(s, old, new): every non-overlapping occurrence of old,
from the left, is replaced by new; an empty old matches before every character and
at the end. -/
def ReplaceAll (s old new : List Char) : List Char :=
  match old with
  | [] => new ++ s.flatMap (fun c => c :: new)
  | _ :: _ => replaceGo old new 0 s

/-- Value of a string of decimal digits. -/
def natOfDigits (ds : List Char) : Nat :=
  ds.foldl (fun a c => 10 * a + (c.toNat - 48)) 0

/-- Go: strconv.ParseFloat(s, 64) with the error discarded, in exact arithmetic: on plain
decimal literals (digits, optionally a point and more digits), which is all the capture
groups can hold, the exact value of the literal, before the rounding to float64 that
Float64.ParseFloat applies. Anything else is a syntax error, whose value is 0. -/
def ParseFloat (s : List Char) : ℚ :=
  let ip := s.takeWhile digit
  match s.dropWhile digit with
  | [] => if ip = [] then 0 else (natOfDigits ip : ℚ)
  | c :: fp =>
    if c = '.' ∧ fp.all digit ∧ (ip ≠ [] ∨ fp ≠ []) then
      (natOfDigits ip : ℚ) + (natOfDigits fp : ℚ) / (10 : ℚ) ^ fp.length
    else 0

/-! ## The package -/

/-- Go: type LinearFunction struct { slope, intercept float64 }, in exact arithmetic: the
fields are rational numbers. -/
structure LinearFunction where
  slope : ℚ
  intercept : ℚ
deriving DecidableEq

/-- The ways NewFromString can panic. -/
inductive Panic where
  | invalidString
  | indexOutOfRange
deriving DecidableEq

/-- Go: slice indexing xs[i], which panics when i is out of range. -/
def index (xs : List (List Char)) (i : Nat) : Except Panic (List Char) :=
  match xs.get? i with
  | some x => .ok x
  | none => .error .indexOutOfRange

/-- Go: func removeSpaces(str string) string. -/
def removeSpaces (str : List Char) : List Char :=
  ReplaceAll str [' '] []

/-- Go: func IsValid(str string) bool. -/
def IsValid (str : List Char) : Bool :=
  linearFnStrRx.MatchString (removeSpaces str)

/-- Go: func NewFromString(str string) LinearFunction, in exact arithmetic. -/
def NewFromString (str : List Char) : Except Panic LinearFunction :=
  if !IsValid str then .error .invalidString
  else do
    let str := removeSpaces str
    let slopeMatches := slopeRx.FindStringSubmatch str
    let m2 ← index slopeMatches 2
    let slope ←
      if m2 ≠ [] then pure (ParseFloat m2)
      else do
        let m3 ← index slopeMatches 3
        if m3 ≠ [] then pure (ParseFloat m3) else pure (1 : ℚ)
    let m1 ← index slopeMatches 1
    let slope := if m1 = ['-'] then slope * (-1) else slope
    let m0 ← index slopeMatches 0
    let strWithoutSlope := ReplaceAll str m0 []
    let interceptMatches := interceptRx.FindStringSubmatch strWithoutSlope
    let intercept ←
      if interceptMatches.length > 0 then do
        let i2 ← index interceptMatches 2
        let i1 ← index interceptMatches 1
        pure (if i1 = ['-'] then ParseFloat i2 * (-1) else ParseFloat i2)
      else pure (0 : ℚ)
    pure { slope := slope, intercept := intercept }

/-- Go: func (lf LinearFunction) Slope() float64. -/
def LinearFunction.Slope (lf : LinearFunction) : ℚ := lf.slope

/-- Go: func (lf LinearFunction) Intercept() float64. -/
def LinearFunction.Intercept (lf : LinearFunction) : ℚ := lf.intercept

/-- Go: func (lf LinearFunction) Exec(x float64) float64, in exact arithmetic. -/
def LinearFunction.Exec (lf : LinearFunction) (x : ℚ) : ℚ := (lf.Slope * x) + lf.Intercept

/-- Go: func (lf LinearFunction) XFromY(y float64) float64, in exact arithmetic (the
quotient by a zero slope is 0 here; Float64.LinearFunction.XFromY gives the float64
result). -/
def LinearFunction.XFromY (lf : LinearFunction) (y : ℚ) : ℚ := (y - lf.Intercept) / lf.Slope

/-- Go: func (lf LinearFunction) Root() float64, in exact arithmetic. -/
def LinearFunction.Root (lf : LinearFunction) : ℚ := lf.XFromY 0

/-- Go: func (lf LinearFunction) Increasing() bool. -/
def LinearFunction.Increasing (lf : LinearFunction) : Bool := decide (lf.Slope > 0)

/-- Go: func (lf LinearFunction) Decreasing() bool. -/
def LinearFunction.Decreasing (lf : LinearFunction) : Bool := !lf.Increasing

/-! ## The reference grammar and the values named by the specification -/

/-- Grammar: sign ::= + | - . -/
def Sign (w : List Char) : Prop := w = ['+'] ∨ w = ['-']

/-- Grammar: sign? -/
def OptSign (w : List Char) : Prop := w = [] ∨ Sign w

/-- Grammar: [0-9]+ -/
def Digits (w : List Char) : Prop := w ≠ [] ∧ ∀ c ∈ w, digit c = true

/-- Grammar: [1-9][0-9]* -/
def PosInt (w : List Char) : Prop :=
  ∃ c t, nonzero c = true ∧ (∀ d ∈ t, digit d = true) ∧ w = c :: t

/-- Grammar: [0-9]+ . [0-9]+ -/
def Decimal (w : List Char) : Prop :=
  ∃ a b, Digits a ∧ Digits b ∧ w = a ++ '.' :: b

/-- Grammar: the coefficient of T, that is empty, [1-9][0-9]* or a decimal. -/
def Coef (w : List Char) : Prop := w = [] ∨ PosInt w ∨ Decimal w

/-- Grammar: T ::= ([1-9][0-9]*)? x | [0-9]+ . [0-9]+ x -/
def T (w : List Char) : Prop := ∃ c, Coef c ∧ w = c ++ ['x']

/-- Grammar: N ::= [0-9]+ (. [0-9]+)? -/
def N (w : List Char) : Prop := Digits w ∨ Decimal w

/-- Grammar: the slope-first shape sign? T (sign N)? -/
def SlopeFirstShape (w : List Char) : Prop :=
  ∃ s1 t, OptSign s1 ∧ T t ∧ (w = s1 ++ t ∨ ∃ s2 k, Sign s2 ∧ N k ∧ w = s1 ++ t ++ s2 ++ k)

/-- Grammar: the intercept-first shape sign? N sign T -/
def InterceptFirstShape (w : List Char) : Prop :=
  ∃ s1 k s2 t, OptSign s1 ∧ N k ∧ Sign s2 ∧ T t ∧ w = s1 ++ k ++ s2 ++ t

/-- Grammar: S ::= sign? T (sign N)? | sign? N sign T -/
def Derives (w : List Char) : Prop := SlopeFirstShape w ∨ InterceptFirstShape w

/-- The exact value of a decimal literal (digits, optionally a point and more digits):
its digits read as one integer, over ten to the number of digits after the point. -/
def decimalValue (w : List Char) : ℚ :=
  (natOfDigits (w.filter (fun c => c != '.')) : ℚ) /
    (10 : ℚ) ^ ((w.dropWhile (fun c => c != '.')).length - 1)

/-- The sign factor sgn of the specification: -1 for the minus sign and +1 otherwise. -/
def sgn (s : List Char) : ℚ := if s = ['-'] then -1 else 1

/-- The value val of a coefficient in the specification: 1 when it is absent. -/
def val (c : List Char) : ℚ := if c = [] then 1 else decimalValue c

/-! ## The same package with float64 arithmetic -/

/-- A float64 (IEEE 754 binary64) value. A finite value is a sign, a significand m and an
exponent e, worth m * 2 ^ e, in the canonical form 2 ^ 52 ≤ m < 2 ^ 53 with
-1074 ≤ e ≤ 971 (normal) or m < 2 ^ 52 with e = -1074 (subnormal and zero, which is
signed). -/
inductive F64 where
  | fin (neg : Bool) (m : ℕ) (e : ℤ)
  | inf (neg : Bool)
  | nan
deriving DecidableEq

/-- The quotient n / d rounded to the nearest natural number, ties to the even one. -/
def roundHalfEven (n d : ℕ) : ℕ :=
  if 2 * (n % d) < d then n / d
  else if d < 2 * (n % d) then n / d + 1
  else if (n / d) % 2 = 0 then n / d else n / d + 1

/-- Position of the leading bit of n (the floor of its binary logarithm), by halving;
the first argument bounds the number of halvings. -/
def bitLog : ℕ → ℕ → ℕ
  | 0, _ => 0
  | fuel + 1, n => if n < 2 then 0 else bitLog fuel (n / 2) + 1

/-- The floor of the binary logarithm of n / d, for positive n and d. -/
def floorLog2 (n d : ℕ) : ℤ :=
  if 0 ≤ (bitLog n n : ℤ) - (bitLog d d : ℤ) then
    (if 2 ^ ((bitLog n n : ℤ) - (bitLog d d : ℤ)).toNat * d ≤ n
      then (bitLog n n : ℤ) - (bitLog d d : ℤ) else (bitLog n n : ℤ) - (bitLog d d : ℤ) - 1)
  else
    (if d ≤ n * 2 ^ ((bitLog d d : ℤ) - (bitLog n n : ℤ)).toNat
      then (bitLog n n : ℤ) - (bitLog d d : ℤ) else (bitLog n n : ℤ) - (bitLog d d : ℤ) - 1)

/-- A finite result with significand m and exponent e, brought to canonical form when
rounding carried into the next binade, or the infinity when it is out of range. -/
def F64.pack (neg : Bool) (m : ℕ) (e : ℤ) : F64 :=
  if m = 2 ^ 53 then (if 970 < e then .inf neg else .fin neg (2 ^ 52) (e + 1))
  else if 971 < e then .inf neg else .fin neg m e

/-- The float64 nearest to the rational n / d (d positive) with the given sign: round to
nearest, ties to even, with gradual underflow and overflow to infinity. -/
def F64.ofRatio (neg : Bool) (n d : ℕ) : F64 :=
  if n = 0 then .fin neg 0 (-1074)
  else if 0 ≤ max (floorLog2 n d - 52) (-1074) then
    F64.pack neg (roundHalfEven n (d * 2 ^ (max (floorLog2 n d - 52) (-1074)).toNat))
      (max (floorLog2 n d - 52) (-1074))
  else
    F64.pack neg (roundHalfEven (n * 2 ^ (-(max (floorLog2 n d - 52) (-1074))).toNat) d)
      (max (floorLog2 n d - 52) (-1074))

/-- Go: the conversion float64(n) of a non-negative integer constant. -/
def F64.ofNat (n : ℕ) : F64 := F64.ofRatio false n 1

/-- Go: unary minus on float64. -/
def F64.neg : F64 → F64
  | .fin s m e => .fin (!s) m e
  | .inf s => .inf (!s)
  | .nan => .nan

/-- Go: float64 multiplication, the exact product rounded to nearest. -/
def F64.mul : F64 → F64 → F64
  | .nan, _ => .nan
  | _, .nan => .nan
  | .inf s, .inf t => .inf (xor s t)
  | .inf s, .fin t m _ => if m = 0 then .nan else .inf (xor s t)
  | .fin s m _, .inf t => if m = 0 then .nan else .inf (xor s t)
  | .fin s m1 e1, .fin t m2 e2 =>
    if 0 ≤ e1 + e2 then F64.ofRatio (xor s t) (m1 * m2 * 2 ^ (e1 + e2).toNat) 1
    else F64.ofRatio (xor s t) (m1 * m2) (2 ^ (-(e1 + e2)).toNat)

/-- The signed integer that a finite value is worth in units of 2 ^ e0, for e0 ≤ e. -/
def F64.units (s : Bool) (m : ℕ) (e e0 : ℤ) : ℤ :=
  if s then -((m * 2 ^ (e - e0).toNat : ℕ) : ℤ) else ((m * 2 ^ (e - e0).toNat : ℕ) : ℤ)

/-- Go: float64 addition, the exact sum rounded to nearest; an exact zero sum is negative
only when both operands are. -/
def F64.add : F64 → F64 → F64
  | .nan, _ => .nan
  | _, .nan => .nan
  | .inf s, .inf t => if s = t then .inf s else .nan
  | .inf s, .fin _ _ _ => .inf s
  | .fin _ _ _, .inf t => .inf t
  | .fin s m1 e1, .fin t m2 e2 =>
    if F64.units s m1 e1 (min e1 e2) + F64.units t m2 e2 (min e1 e2) = 0 then
      .fin (s && t) 0 (-1074)
    else if 0 ≤ min e1 e2 then
      F64.ofRatio
        (decide (F64.units s m1 e1 (min e1 e2) + F64.units t m2 e2 (min e1 e2) < 0))
        ((F64.units s m1 e1 (min e1 e2) + F64.units t m2 e2 (min e1 e2)).natAbs *
          2 ^ (min e1 e2).toNat) 1
    else
      F64.ofRatio
        (decide (F64.units s m1 e1 (min e1 e2) + F64.units t m2 e2 (min e1 e2) < 0))
        (F64.units s m1 e1 (min e1 e2) + F64.units t m2 e2 (min e1 e2)).natAbs
        (2 ^ (-(min e1 e2)).toNat)

/-- Go: float64 subtraction. -/
def F64.sub (a b : F64) : F64 := F64.add a (F64.neg b)

/-- Go: float64 division, the exact quotient rounded to nearest; a non-zero value over
zero is an infinity and zero over zero is NaN. -/
def F64.div : F64 → F64 → F64
  | .nan, _ => .nan
  | _, .nan => .nan
  | .inf _, .inf _ => .nan
  | .inf s, .fin t _ _ => .inf (xor s t)
  | .fin s _ _, .inf t => .fin (xor s t) 0 (-1074)
  | .fin s m1 e1, .fin t m2 e2 =>
    if m2 = 0 then (if m1 = 0 then .nan else .inf (xor s t))
    else if 0 ≤ e1 - e2 then F64.ofRatio (xor s t) (m1 * 2 ^ (e1 - e2).toNat) m2
    else F64.ofRatio (xor s t) m1 (m2 * 2 ^ (e2 - e1).toNat)

/-- Go: the comparison == on float64: NaN equals nothing, not even itself, and the two
zeros are equal. -/
def F64.eq : F64 → F64 → Bool
  | .fin s m1 e1, .fin t m2 e2 =>
    (m1 == 0 && m2 == 0) || (s == t && m1 * 2 ^ (e1 - min e1 e2).toNat ==
      m2 * 2 ^ (e2 - min e1 e2).toNat)
  | .inf s, .inf t => s == t
  | _, _ => false

/-- The rational number a finite float64 is worth; none for the infinities and NaN. -/
def F64.toRat? : F64 → Option ℚ
  | .fin s m e => some ((if s then -1 else 1) * (m : ℚ) * (2 : ℚ) ^ e)
  | _ => none

namespace Float64

/-- Go: strconv.ParseFloat(s, 64) with the error discarded, on plain decimal literals
(digits, optionally a point and more digits), which is all the capture groups can hold:
the float64 nearest to the literal, the infinity when it is out of range. Anything else
is a syntax error, whose value is 0. -/
def ParseFloat (s : List Char) : F64 :=
  match s.dropWhile digit with
  | [] =>
    if s.takeWhile digit = [] then F64.ofNat 0
    else F64.ofRatio false (natOfDigits (s.takeWhile digit)) 1
  | c :: fp =>
    if c = '.' ∧ fp.all digit ∧ (s.takeWhile digit ≠ [] ∨ fp ≠ []) then
      F64.ofRatio false (natOfDigits (s.takeWhile digit) * 10 ^ fp.length + natOfDigits fp)
        (10 ^ fp.length)
    else F64.ofNat 0

/-- Go: type LinearFunction struct { slope, intercept float64 }. -/
structure LinearFunction where
  slope : F64
  intercept : F64
deriving DecidableEq

/-- Go: func NewFromString(str string) LinearFunction, with float64 arithmetic. -/
def NewFromString (str : List Char) : Except Panic LinearFunction :=
  if !IsValid str then .error .invalidString
  else do
    let str := removeSpaces str
    let slopeMatches := slopeRx.FindStringSubmatch str
    let m2 ← index slopeMatches 2
    let slope ←
      if m2 ≠ [] then pure (ParseFloat m2)
      else do
        let m3 ← index slopeMatches 3
        if m3 ≠ [] then pure (ParseFloat m3) else pure (F64.ofNat 1)
    let m1 ← index slopeMatches 1
    let slope := if m1 = ['-'] then F64.mul slope (F64.neg (F64.ofNat 1)) else slope
    let m0 ← index slopeMatches 0
    let strWithoutSlope := ReplaceAll str m0 []
    let interceptMatches := interceptRx.FindStringSubmatch strWithoutSlope
    let intercept ←
      if interceptMatches.length > 0 then do
        let i2 ← index interceptMatches 2
        let i1 ← index interceptMatches 1
        pure (if i1 = ['-'] then F64.mul (ParseFloat i2) (F64.neg (F64.ofNat 1))
          else ParseFloat i2)
      else pure (F64.ofNat 0)
    pure { slope := slope, intercept := intercept }

/-- Go: func (lf LinearFunction) Slope() float64. -/
def LinearFunction.Slope (lf : LinearFunction) : F64 := lf.slope

/-- Go: func (lf LinearFunction) Intercept() float64. -/
def LinearFunction.Intercept (lf : LinearFunction) : F64 := lf.intercept

/-- Go: func (lf LinearFunction) XFromY(y float64) float64. -/
def LinearFunction.XFromY (lf : LinearFunction) (y : F64) : F64 :=
  F64.div (F64.sub y lf.Intercept) lf.Slope

/-- Go: func (lf LinearFunction) Root() float64. -/
def LinearFunction.Root (lf : LinearFunction) : F64 := lf.XFromY (F64.ofNat 0)

end Float64

/-- The float64 nearest to the exact value of a decimal literal: decimalValue w is the
quotient of the two numbers rounded here. -/
def nearestF64 (w : List Char) : F64 :=
  F64.ofRatio false (natOfDigits (w.filter (fun c => c != '.')))
    (10 ^ ((w.dropWhile (fun c => c != '.')).length - 1))

/-- The float64 value of a coefficient: 1 when it is absent. -/
def coefF64 (c : List Char) : F64 := if c = [] then F64.ofNat 1 else nearestF64 c

/-- The float64 sign handling of NewFromString: the value is multiplied by -1 when the
sign is the minus sign. -/
def withSign (sg : List Char) (v : F64) : F64 :=
  if sg = ['-'] then F64.mul v (F64.neg (F64.ofNat 1)) else v


/-! ## Notions used in the proofs -/

/-- Patterns without anchors. -/
def Rx.anchorFree : Rx → Prop
  | .cls _ => True
  | .seq a b => a.anchorFree ∧ b.anchorFree
  | .alt a b => a.anchorFree ∧ b.anchorFree
  | .opt a => a.anchorFree
  | .star _ => True
  | .cap _ a => a.anchorFree
  | .bol => False
  | .eol => False

/-- The language of an anchor-free pattern: the words it can match. -/
def Rx.lang : Rx → List Char → Prop
  | .cls p, w => ∃ c, p c = true ∧ w = [c]
  | .seq a b, w => ∃ u v, a.lang u ∧ b.lang v ∧ w = u ++ v
  | .alt a b, w => a.lang w ∨ b.lang w
  | .opt a, w => a.lang w ∨ w = []
  | .star p, w => ∀ c ∈ w, p c = true
  | .cap _ a, w => a.lang w
  | .bol, _ => False
  | .eol, _ => False

/-- The first outcome of running r from st is e. -/
def First (n : Nat) (r : Rx) (st e : St) : Prop := ∃ tl, Rx.run n r st = e :: tl

/-- A digit or the decimal point. -/
def numChar (c : Char) : Bool := digit c || c == '.'

/-- The sign handling of NewFromString: the value is multiplied by -1 when the captured
sign is the minus sign. -/
def signed (sg : List Char) (v : ℚ) : ℚ := if sg = ['-'] then v * (-1) else v

/-- The magnitude NewFromString gives a coefficient: 1 when it is absent. -/
def coefMagnitude (c : List Char) : ℚ := if c = [] then 1 else ParseFloat c

/-- A string that is empty or ends with a sign. -/
def EndsSign (p : List Char) : Prop := p = [] ∨ ∃ q, p = q ++ ['+'] ∨ p = q ++ ['-']

/-- Every decimal point of t stands between two digits. -/
def DotOK (t : List Char) : Prop :=
  ∀ a b, t = a ++ '.' :: b →
    (∃ a1 d, a = a1 ++ [d] ∧ digit d = true) ∧ (∃ d b1, b = d :: b1 ∧ digit d = true)

/-! ## The matcher and the language of a pattern -/

theorem mem_starRun (p : Char → Bool) (g : Caps) (s : List Char) (e : St) :
    e ∈ starRun p g s ↔ e.2 = g ∧ ∃ w, (∀ c ∈ w, p c = true) ∧ s = w ++ e.1 := by
  induction s with
  | nil =>
    obtain ⟨t, h⟩ := e
    simp only [starRun, List.mem_singleton, Prod.mk.injEq]
    constructor
    · rintro ⟨rfl, rfl⟩
      exact ⟨rfl, [], by simp, rfl⟩
    · rintro ⟨rfl, w, -, hw⟩
      have := List.append_eq_nil.mp hw.symm
      exact ⟨this.2, rfl⟩
  | cons c s ih =>
    obtain ⟨t, h⟩ := e
    simp only [starRun]
    split
    · rename_i hc
      simp only [List.mem_append, ih, List.mem_singleton, Prod.mk.injEq]
      constructor
      · rintro (⟨rfl, w, hw, rfl⟩ | ⟨rfl, rfl⟩)
        · refine ⟨rfl, c :: w, ?_, rfl⟩
          intro d hd
          rcases List.mem_cons.mp hd with rfl | hd
          · exact hc
          · exact hw d hd
        · exact ⟨rfl, [], by simp, rfl⟩
      · rintro ⟨rfl, w, hw, hs⟩
        cases w with
        | nil => right; exact ⟨hs.symm, rfl⟩
        | cons d w =>
          left
          simp only [List.cons_append, List.cons.injEq] at hs
          exact ⟨rfl, w, fun x hx => hw x (List.mem_cons_of_mem _ hx), hs.2⟩
    · rename_i hc
      simp only [List.mem_singleton, Prod.mk.injEq]
      constructor
      · rintro ⟨rfl, rfl⟩
        exact ⟨rfl, [], by simp, rfl⟩
      · rintro ⟨rfl, w, hw, hs⟩
        cases w with
        | nil => exact ⟨hs.symm, rfl⟩
        | cons d w =>
          simp only [List.cons_append, List.cons.injEq] at hs
          exact absurd (hw d (List.mem_cons_self _ _)) (hs.1 ▸ hc)

theorem run_iff (n : Nat) (r : Rx) (hr : r.anchorFree) (s : List Char) (g : Caps) (t : List Char) :
    (∃ h, (t, h) ∈ Rx.run n r (s, g)) ↔ ∃ w, r.lang w ∧ s = w ++ t := by
  induction r generalizing s g t with
  | cls p =>
    cases s with
    | nil =>
      simp only [Rx.run, Rx.lang, List.not_mem_nil, exists_false, false_iff]
      rintro ⟨w, ⟨d, hd, rfl⟩, hs⟩
      simp at hs
    | cons c s =>
      simp only [Rx.run, Rx.lang]
      split
      · rename_i hc
        simp only [List.mem_singleton, Prod.mk.injEq, exists_eq_right]
        constructor
        · rintro rfl
          exact ⟨[c], ⟨c, hc, rfl⟩, rfl⟩
        · rintro ⟨w, ⟨d, hd, rfl⟩, hs⟩
          simp at hs
          exact hs.2.symm
      · rename_i hc
        simp only [List.not_mem_nil, exists_false, false_iff]
        rintro ⟨w, ⟨d, hd, rfl⟩, hs⟩
        simp at hs
        exact hc (hs.1 ▸ hd)
  | seq a b iha ihb =>
    simp only [Rx.run, Rx.lang, List.mem_flatMap]
    constructor
    · rintro ⟨h, ⟨m, gm⟩, hm, hb⟩
      obtain ⟨u, hu, rfl⟩ := (iha hr.1 s g m).mp ⟨gm, hm⟩
      obtain ⟨v, hv, rfl⟩ := (ihb hr.2 m gm t).mp ⟨h, hb⟩
      exact ⟨u ++ v, ⟨u, v, hu, hv, rfl⟩, by simp⟩
    · rintro ⟨w, ⟨u, v, hu, hv, rfl⟩, rfl⟩
      obtain ⟨gm, hm⟩ := (iha hr.1 (u ++ v ++ t) g (v ++ t)).mpr ⟨u, hu, by simp⟩
      obtain ⟨h, hb⟩ := (ihb hr.2 (v ++ t) gm t).mpr ⟨v, hv, rfl⟩
      exact ⟨h, (v ++ t, gm), hm, hb⟩
  | alt a b iha ihb =>
    simp only [Rx.run, Rx.lang, List.mem_append, exists_or, iha hr.1, ihb hr.2]
    constructor
    · rintro (⟨w, hw, rfl⟩ | ⟨w, hw, rfl⟩)
      · exact ⟨w, Or.inl hw, rfl⟩
      · exact ⟨w, Or.inr hw, rfl⟩
    · rintro ⟨w, hw | hw, rfl⟩
      · exact Or.inl ⟨w, hw, rfl⟩
      · exact Or.inr ⟨w, hw, rfl⟩
  | opt a iha =>
    simp only [Rx.run, Rx.lang, List.mem_append, exists_or, iha hr, List.mem_singleton,
      Prod.mk.injEq]
    constructor
    · rintro (⟨w, hw, rfl⟩ | ⟨h, rfl, rfl⟩)
      · exact ⟨w, Or.inl hw, rfl⟩
      · exact ⟨[], Or.inr rfl, rfl⟩
    · rintro ⟨w, hw | rfl, rfl⟩
      · exact Or.inl ⟨w, hw, rfl⟩
      · exact Or.inr ⟨g, rfl, rfl⟩
  | star p =>
    simp only [Rx.run, Rx.lang, mem_starRun]
    constructor
    · rintro ⟨h, -, w, hw, rfl⟩
      exact ⟨w, hw, rfl⟩
    · rintro ⟨w, hw, rfl⟩
      exact ⟨g, rfl, w, hw, rfl⟩
  | cap i a iha =>
    simp only [Rx.run, Rx.lang, List.mem_map, Prod.mk.injEq]
    constructor
    · rintro ⟨h, ⟨m, gm⟩, hm, rfl, -⟩
      exact (iha hr s g m).mp ⟨gm, hm⟩
    · intro hw
      obtain ⟨gm, hm⟩ := (iha hr s g t).mpr hw
      exact ⟨_, (t, gm), hm, rfl, rfl⟩
  | bol => exact hr.elim
  | eol => exact hr.elim

/-! ## The patterns and the grammar -/

theorem nonzero_digit {c : Char} (h : nonzero c = true) : digit c = true := by
  simp only [nonzero, digit, Bool.and_eq_true, decide_eq_true_eq] at *
  refine ⟨?_, h.2⟩
  exact le_trans (by decide) h.1

theorem lang_seq (a b : Rx) (w : List Char) :
    (Rx.seq a b).lang w ↔ ∃ u v, a.lang u ∧ b.lang v ∧ w = u ++ v := Iff.rfl

theorem lang_alt (a b : Rx) (w : List Char) :
    (Rx.alt a b).lang w ↔ a.lang w ∨ b.lang w := Iff.rfl

theorem lang_opt (a : Rx) (w : List Char) : (Rx.opt a).lang w ↔ a.lang w ∨ w = [] := Iff.rfl

theorem lang_star (p : Char → Bool) (w : List Char) :
    (Rx.star p).lang w ↔ ∀ c ∈ w, p c = true := Iff.rfl

theorem lang_cap (i : Nat) (a : Rx) (w : List Char) : (Rx.cap i a).lang w ↔ a.lang w := Iff.rfl

theorem lang_cls (p : Char → Bool) (w : List Char) :
    (Rx.cls p).lang w ↔ ∃ c, p c = true ∧ w = [c] := Iff.rfl

theorem lang_lit (c : Char) (w : List Char) : (lit c).lang w ↔ w = [c] := by
  simp [lit, lang_cls]

theorem lang_sign (w : List Char) : sign.lang w ↔ Sign w := by
  simp only [sign, lang_alt, lang_lit, Sign]

theorem lang_optSign (w : List Char) : (Rx.opt sign).lang w ↔ OptSign w := by
  simp only [lang_opt, lang_sign, OptSign]
  tauto

theorem lang_plus (p : Char → Bool) (w : List Char) :
    (plus p).lang w ↔ w ≠ [] ∧ ∀ c ∈ w, p c = true := by
  simp only [plus, lang_seq, lang_cls, lang_star]
  constructor
  · rintro ⟨u, v, ⟨c, hc, rfl⟩, hv, rfl⟩
    refine ⟨by simp, ?_⟩
    intro d hd
    simp only [List.singleton_append, List.mem_cons] at hd
    rcases hd with rfl | hd
    · exact hc
    · exact hv d hd
  · rintro ⟨hne, hw⟩
    cases w with
    | nil => exact absurd rfl hne
    | cons c t =>
      exact ⟨[c], t, ⟨c, hw c (List.mem_cons_self _ _), rfl⟩,
        fun d hd => hw d (List.mem_cons_of_mem _ hd), rfl⟩

theorem lang_digits (w : List Char) : (plus digit).lang w ↔ Digits w := lang_plus digit w

theorem lang_posInt (w : List Char) :
    (Rx.seq (plus nonzero) (.star digit)).lang w ↔ PosInt w := by
  simp only [lang_seq, lang_star, lang_plus, PosInt]
  constructor
  · rintro ⟨u, v, ⟨hne, hu⟩, hv, rfl⟩
    cases u with
    | nil => exact absurd rfl hne
    | cons c t =>
      refine ⟨c, t ++ v, hu c (List.mem_cons_self _ _), ?_, rfl⟩
      intro d hd
      rcases List.mem_append.mp hd with hd | hd
      · exact nonzero_digit (hu d (List.mem_cons_of_mem _ hd))
      · exact hv d hd
  · rintro ⟨c, t, hc, ht, rfl⟩
    refine ⟨[c], t, ⟨by simp, ?_⟩, ht, rfl⟩
    intro d hd
    rw [List.mem_singleton.mp hd]
    exact hc

theorem lang_decimal (w : List Char) :
    (Rx.seq (plus digit) (.seq (lit '.') (plus digit))).lang w ↔ Decimal w := by
  simp only [lang_seq, lang_digits, lang_lit, Decimal]
  constructor
  · rintro ⟨a, v, ha, ⟨u, b, rfl, hb, rfl⟩, rfl⟩
    exact ⟨a, b, ha, hb, rfl⟩
  · rintro ⟨a, b, ha, hb, rfl⟩
    exact ⟨a, '.' :: b, ha, ⟨['.'], b, rfl, hb, rfl⟩, rfl⟩

theorem lang_number (w : List Char) : number.lang w ↔ N w := by
  simp only [number, lang_seq, lang_opt, lang_star, lang_digits, lang_lit, N, Decimal]
  constructor
  · rintro ⟨a, v, ha, ⟨a2, v2, ha2, h2, rfl⟩, rfl⟩
    have hd : Digits (a ++ a2) := by
      refine ⟨by simp [ha.1], ?_⟩
      intro c hc
      rcases List.mem_append.mp hc with hc | hc
      · exact ha.2 c hc
      · exact ha2 c hc
    rcases h2 with ⟨u, b, ⟨rfl, hb, rfl⟩⟩ | rfl
    · right
      exact ⟨a ++ a2, b, hd, hb, by simp⟩
    · left
      simpa using hd
  · rintro (hd | ⟨a, b, ha, hb, rfl⟩)
    · exact ⟨w, [], hd, ⟨[], [], by simp, Or.inr rfl, rfl⟩, by simp⟩
    · exact ⟨a, '.' :: b, ha, ⟨[], '.' :: b, by simp, Or.inl ⟨['.'], b, rfl, hb, rfl⟩, rfl⟩, rfl⟩

theorem lang_term (w : List Char) : term.lang w ↔ T w := by
  unfold term
  rw [lang_alt]
  have h1 : (Rx.seq (.opt (.seq (plus nonzero) (.star digit))) (lit 'x')).lang w ↔
      ∃ c, (c = [] ∨ PosInt c) ∧ w = c ++ ['x'] := by
    rw [lang_seq]
    simp only [lang_lit]
    constructor
    · rintro ⟨u, v, hu, rfl, rfl⟩
      rw [lang_opt, lang_posInt] at hu
      exact ⟨u, hu.symm, rfl⟩
    · rintro ⟨c, hc, rfl⟩
      refine ⟨c, ['x'], ?_, rfl, rfl⟩
      rw [lang_opt, lang_posInt]
      exact hc.symm
  have h2 : (Rx.seq (plus digit) (.seq (lit '.') (.seq (plus digit) (lit 'x')))).lang w ↔
      ∃ c, Decimal c ∧ w = c ++ ['x'] := by
    simp only [lang_seq, lang_digits, lang_lit, Decimal]
    constructor
    · rintro ⟨a, v, ha, ⟨u, v2, rfl, ⟨b, x, hb, rfl, rfl⟩, rfl⟩, rfl⟩
      exact ⟨a ++ '.' :: b, ⟨a, b, ha, hb, rfl⟩, by simp⟩
    · rintro ⟨c, ⟨a, b, ha, hb, rfl⟩, rfl⟩
      exact ⟨a, '.' :: (b ++ ['x']), ha, ⟨['.'], b ++ ['x'], rfl, ⟨b, ['x'], hb, rfl, rfl⟩, rfl⟩,
        by simp⟩
  rw [h1, h2]
  unfold T Coef
  constructor
  · rintro (⟨c, hc, rfl⟩ | ⟨c, hc, rfl⟩)
    · exact ⟨c, by tauto, rfl⟩
    · exact ⟨c, by tauto, rfl⟩
  · rintro ⟨c, hc | hc | hc, rfl⟩
    · exact Or.inl ⟨c, Or.inl hc, rfl⟩
    · exact Or.inl ⟨c, Or.inr hc, rfl⟩
    · exact Or.inr ⟨c, hc, rfl⟩

theorem lang_slopeFirst (w : List Char) : slopeFirst.lang w ↔ SlopeFirstShape w := by
  unfold slopeFirst SlopeFirstShape
  rw [lang_seq]
  simp only [lang_optSign]
  constructor
  · rintro ⟨s1, v, hs1, hv, rfl⟩
    rw [lang_seq] at hv
    obtain ⟨t, r, ht, hr, rfl⟩ := hv
    rw [lang_term] at ht
    rw [lang_opt, lang_seq] at hr
    refine ⟨s1, t, hs1, ht, ?_⟩
    rcases hr with ⟨s2, k, hs2, hk, rfl⟩ | rfl
    · right
      exact ⟨s2, k, (lang_sign _).mp hs2, (lang_number _).mp hk, by simp⟩
    · left
      simp
  · rintro ⟨s1, t, hs1, ht, h⟩
    rcases h with rfl | ⟨s2, k, hs2, hk, rfl⟩
    · refine ⟨s1, t, hs1, ?_, rfl⟩
      rw [lang_seq]
      refine ⟨t, [], (lang_term _).mpr ht, ?_, by simp⟩
      rw [lang_opt]
      exact Or.inr rfl
    · refine ⟨s1, t ++ s2 ++ k, hs1, ?_, by simp⟩
      rw [lang_seq]
      refine ⟨t, s2 ++ k, (lang_term _).mpr ht, ?_, by simp⟩
      rw [lang_opt, lang_seq]
      exact Or.inl ⟨s2, k, (lang_sign _).mpr hs2, (lang_number _).mpr hk, rfl⟩

theorem lang_interceptFirst (w : List Char) :
    interceptFirst.lang w ↔ InterceptFirstShape w := by
  unfold interceptFirst InterceptFirstShape
  rw [lang_seq]
  simp only [lang_optSign]
  constructor
  · rintro ⟨s1, v, hs1, hv, rfl⟩
    rw [lang_seq] at hv
    obtain ⟨k, r, hk, hr, rfl⟩ := hv
    rw [lang_seq] at hr
    obtain ⟨s2, t, hs2, ht, rfl⟩ := hr
    exact ⟨s1, k, s2, t, hs1, (lang_number _).mp hk, (lang_sign _).mp hs2,
      (lang_term _).mp ht, by simp⟩
  · rintro ⟨s1, k, s2, t, hs1, hk, hs2, ht, rfl⟩
    refine ⟨s1, k ++ s2 ++ t, hs1, ?_, by simp⟩
    rw [lang_seq]
    refine ⟨k, s2 ++ t, (lang_number _).mpr hk, ?_, by simp⟩
    rw [lang_seq]
    exact ⟨s2, t, (lang_sign _).mpr hs2, (lang_term _).mpr ht, rfl⟩

/-! ## Anchors: IsValid and the grammar -/

theorem run_seq (n : Nat) (a b : Rx) (st : St) :
    Rx.run n (.seq a b) st = (Rx.run n a st).flatMap (Rx.run n b) := rfl

theorem run_alt (n : Nat) (a b : Rx) (st : St) :
    Rx.run n (.alt a b) st = Rx.run n a st ++ Rx.run n b st := rfl

theorem run_opt (n : Nat) (a : Rx) (st : St) :
    Rx.run n (.opt a) st = Rx.run n a st ++ [st] := rfl

theorem run_cap (n i : Nat) (a : Rx) (st : St) :
    Rx.run n (.cap i a) st =
      (Rx.run n a st).map fun e => (e.1, e.2.set i (st.1.take (st.1.length - e.1.length))) := rfl

theorem run_star (n : Nat) (p : Char → Bool) (st : St) :
    Rx.run n (.star p) st = starRun p st.2 st.1 := rfl

theorem run_bol (n : Nat) (st : St) :
    Rx.run n .bol st = if st.1.length = n then [st] else [] := rfl

theorem run_eol_nil (n : Nat) (g : Caps) : Rx.run n .eol ([], g) = [([], g)] := rfl

theorem run_eol_cons (n : Nat) (c : Char) (s : List Char) (g : Caps) :
    Rx.run n .eol (c :: s, g) = [] := rfl

theorem run_cls_nil (n : Nat) (p : Char → Bool) (g : Caps) : Rx.run n (.cls p) ([], g) = [] := rfl

theorem run_cls_cons (n : Nat) (p : Char → Bool) (c : Char) (s : List Char) (g : Caps) :
    Rx.run n (.cls p) (c :: s, g) = if p c = true then [(s, g)] else [] := rfl

theorem matchAt_isSome (r : Rx) (k n : Nat) (s : List Char) :
    (matchAt r k n s).isSome = true ↔ Rx.run n r (s, List.replicate (k + 1) []) ≠ [] := by
  unfold matchAt
  split <;> simp_all

theorem matchAt_eq_none (r : Rx) (k n : Nat) (s : List Char) :
    matchAt r k n s = none ↔ Rx.run n r (s, List.replicate (k + 1) []) = [] := by
  unfold matchAt
  split <;> simp_all

theorem run_ne_nil_iff (n : Nat) (r : Rx) (hr : r.anchorFree) (s : List Char) (g : Caps) :
    Rx.run n r (s, g) ≠ [] ↔ ∃ w t, r.lang w ∧ s = w ++ t := by
  constructor
  · intro h
    obtain ⟨⟨t, h2⟩, he⟩ := List.exists_mem_of_ne_nil _ h
    obtain ⟨w, hw, hs⟩ := (run_iff n r hr s g t).mp ⟨h2, he⟩
    exact ⟨w, t, hw, hs⟩
  · rintro ⟨w, t, hw, hs⟩
    obtain ⟨h2, he⟩ := (run_iff n r hr s g t).mpr ⟨w, hw, hs⟩
    exact List.ne_nil_of_mem he

theorem run_eq_nil_iff (n : Nat) (r : Rx) (hr : r.anchorFree) (s : List Char) (g : Caps) :
    Rx.run n r (s, g) = [] ↔ ∀ w t, r.lang w → s ≠ w ++ t := by
  rw [← not_iff_not, ← ne_eq, run_ne_nil_iff n r hr]
  push_neg
  rfl

theorem search_bol_none (r : Rx) (k n : Nat) :
    ∀ s : List Char, s.length < n → search (.seq .bol r) k n s = none := by
  have hm : ∀ s : List Char, s.length < n → matchAt (.seq .bol r) k n s = none := by
    intro s hs
    rw [matchAt_eq_none, run_seq, run_bol, if_neg (by simpa using Nat.ne_of_lt hs)]
    rfl
  intro s
  induction s with
  | nil => intro h; simpa [search] using hm [] h
  | cons c s ih =>
    intro h
    rw [search, hm (c :: s) h]
    exact ih (Nat.lt_of_succ_lt (by simpa using h))

theorem search_bol (r : Rx) (k : Nat) (t : List Char) :
    search (.seq .bol r) k t.length t = matchAt (.seq .bol r) k t.length t := by
  cases t with
  | nil => rfl
  | cons c s =>
    rw [search]
    cases h : matchAt (.seq .bol r) k (c :: s).length (c :: s) with
    | some g => rfl
    | none => exact search_bol_none r k _ s (by simp)

theorem anchorFree_body : (Rx.alt slopeFirst interceptFirst).anchorFree := by
  simp [slopeFirst, interceptFirst, term, number, sign, plus, lit, Rx.anchorFree]

theorem matchString_linearFnStrRx (t : List Char) :
    linearFnStrRx.MatchString t = true ↔ (Rx.alt slopeFirst interceptFirst).lang t := by
  unfold Regexp.MatchString linearFnStrRx
  simp only
  rw [search_bol, matchAt_isSome, run_seq, run_bol, if_pos rfl, List.flatMap_singleton, run_seq]
  constructor
  · intro h
    obtain ⟨e, he⟩ := List.exists_mem_of_ne_nil _ h
    obtain ⟨⟨m, gm⟩, hm, hb⟩ := List.mem_flatMap.mp he
    cases m with
    | nil =>
      obtain ⟨w, hw, hs⟩ := (run_iff _ _ anchorFree_body t _ []).mp ⟨gm, hm⟩
      simpa [hs] using hw
    | cons c m => simp [run_eol_cons] at hb
  · intro h
    obtain ⟨gm, hm⟩ := (run_iff t.length _ anchorFree_body t (List.replicate (0 + 1) []) []).mpr
      ⟨t, h, by simp⟩
    apply List.ne_nil_of_mem
    exact List.mem_flatMap.mpr ⟨([], gm), hm, by rw [run_eol_nil]; exact List.mem_singleton.mpr rfl⟩

theorem isValid_iff_derives (s : List Char) : IsValid s = true ↔ Derives (removeSpaces s) := by
  unfold IsValid Derives
  rw [matchString_linearFnStrRx, lang_alt, lang_slopeFirst, lang_interceptFirst]

/-! ## strings.ReplaceAll and removeSpaces -/

theorem removeSpaces_eq_filter (s : List Char) :
    removeSpaces s = s.filter (fun c => c != ' ') := by
  unfold removeSpaces ReplaceAll
  simp only
  induction s with
  | nil => rfl
  | cons c t ih =>
    by_cases h : c = ' '
    · subst h
      simp only [replaceGo, List.isPrefixOf, beq_self_eq_true, Bool.and_self, if_true,
        List.nil_append, List.length_singleton, Nat.sub_self, ih]
      simp
    · have h2 : (' ' == c) = false := by
        simpa using fun h3 => h h3.symm
      simp only [replaceGo, List.isPrefixOf, h2, Bool.false_and, ih]
      simp [h]

theorem removeSpaces_idem (s : List Char) : removeSpaces (removeSpaces s) = removeSpaces s := by
  simp [removeSpaces_eq_filter, List.filter_filter]

theorem removeSpaces_of_not_mem (s : List Char) (h : ' ' ∉ s) : removeSpaces s = s := by
  rw [removeSpaces_eq_filter, List.filter_eq_self]
  intro c hc
  simpa using fun h2 : c = ' ' => h (h2 ▸ hc)

theorem replaceGo_skip (old new u b : List Char) :
    replaceGo old new u.length (u ++ b) = replaceGo old new 0 b := by
  induction u with
  | nil => rfl
  | cons c u ih => simpa [replaceGo] using ih

theorem replaceGo_no_occurrence (old : List Char) (x : Char) (hx : x ∈ old) :
    ∀ b : List Char, x ∉ b → replaceGo old [] 0 b = b := by
  intro b
  induction b with
  | nil => intro _; rfl
  | cons c t ih =>
    intro hb
    have hp : old.isPrefixOf (c :: t) = false := by
      rw [Bool.eq_false_iff]
      intro hpre
      have := List.isPrefixOf_iff_prefix.mp hpre
      exact hb (this.subset hx)
    rw [replaceGo, hp]
    simp only [Bool.false_eq_true, if_false, List.cons.injEq, true_and]
    exact ih (fun h => hb (List.mem_cons_of_mem _ h))

theorem split_unique (x : Char) :
    ∀ (u v r t : List Char), x ∉ u → x ∉ v → u ++ x :: r = v ++ x :: t → u = v ∧ r = t := by
  intro u
  induction u with
  | nil =>
    intro v r t _ hv h
    cases v with
    | nil => simpa using h
    | cons d v =>
      simp only [List.nil_append, List.cons_append, List.cons.injEq] at h
      exact absurd (h.1 ▸ List.mem_cons_self _ _) hv
  | cons c u ih =>
    intro v r t hu hv h
    cases v with
    | nil =>
      simp only [List.nil_append, List.cons_append, List.cons.injEq] at h
      exact absurd (h.1 ▸ List.mem_cons_self _ _) hu
    | cons d v =>
      simp only [List.cons_append, List.cons.injEq] at h
      obtain ⟨h1, h2⟩ := ih v r t (fun hm => hu (List.mem_cons_of_mem _ hm))
        (fun hm => hv (List.mem_cons_of_mem _ hm)) h.2
      exact ⟨by rw [h.1, h1], h2⟩

/-- Removing an occurrence that ends in a character found nowhere else removes just it. -/
theorem replaceAll_remove (x : Char) (w b : List Char) (hw : x ∉ w) (hb : x ∉ b) :
    ∀ a : List Char, x ∉ a →
      ReplaceAll (a ++ (w ++ [x]) ++ b) (w ++ [x]) [] = a ++ b := by
  have hold : ∃ d tl, w ++ [x] = d :: tl := by
    cases w with
    | nil => exact ⟨x, [], rfl⟩
    | cons d w => exact ⟨d, w ++ [x], rfl⟩
  obtain ⟨d, tl, hdt⟩ := hold
  have hR : ∀ s, ReplaceAll s (w ++ [x]) [] = replaceGo (w ++ [x]) [] 0 s := by
    intro s
    rw [hdt]
    rfl
  intro a
  rw [hR]
  induction a with
  | nil =>
    intro _
    rw [List.nil_append, hdt, List.cons_append, replaceGo, ← hdt]
    have hp : (w ++ [x]).isPrefixOf (d :: (tl ++ b)) = true := by
      rw [List.isPrefixOf_iff_prefix, ← List.cons_append, ← hdt]
      exact List.prefix_append _ _
    rw [if_pos hp, List.nil_append]
    have hlen : (w ++ [x]).length - 1 = tl.length := by
      rw [hdt]
      simp
    rw [hlen, replaceGo_skip]
    exact replaceGo_no_occurrence _ x (by simp) b hb
  | cons c a ih =>
    intro ha
    have hp : (w ++ [x]).isPrefixOf (c :: a ++ (w ++ [x]) ++ b) = false := by
      rw [Bool.eq_false_iff]
      intro hpre
      obtain ⟨r, hr⟩ := List.isPrefixOf_iff_prefix.mp hpre
      have h1 : w ++ x :: r = (c :: a ++ w) ++ x :: b := by
        simpa using hr
      have hn : x ∉ c :: a ++ w := by
        intro hm
        rcases List.mem_append.mp hm with hm | hm
        · exact ha hm
        · exact hw hm
      have := (split_unique x w (c :: a ++ w) r b hw hn h1).1
      have hl := congrArg List.length this
      simp at hl
      omega
    rw [List.cons_append, List.cons_append, replaceGo]
    rw [List.cons_append, List.cons_append] at hp
    rw [hp]
    simp only [Bool.false_eq_true, if_false, List.cons_append, List.cons.injEq, true_and]
    exact ih (fun h => ha (List.mem_cons_of_mem _ h))

/-! ## The first outcome of the backtracking search -/

theorem first_cls (n : Nat) (p : Char → Bool) (c : Char) (t : List Char) (g : Caps)
    (h : p c = true) : First n (.cls p) (c :: t, g) (t, g) :=
  ⟨[], by rw [run_cls_cons, if_pos h]⟩

theorem first_lit (n : Nat) (c : Char) (t : List Char) (g : Caps) :
    First n (lit c) (c :: t, g) (t, g) :=
  first_cls n _ c t g (by simp)

theorem first_seq {n : Nat} {a b : Rx} {st m e : St}
    (ha : First n a st m) (hb : First n b m e) : First n (.seq a b) st e := by
  obtain ⟨ta, ha⟩ := ha
  obtain ⟨tb, hb⟩ := hb
  exact ⟨tb ++ ta.flatMap (Rx.run n b), by rw [run_seq, ha, List.flatMap_cons, hb]; rfl⟩

theorem first_alt_left {n : Nat} {a : Rx} (b : Rx) {st e : St}
    (ha : First n a st e) : First n (.alt a b) st e := by
  obtain ⟨ta, ha⟩ := ha
  exact ⟨ta ++ Rx.run n b st, by rw [run_alt, ha]; rfl⟩

theorem first_alt_right {n : Nat} {a b : Rx} {st e : St}
    (ha : Rx.run n a st = []) (hb : First n b st e) : First n (.alt a b) st e := by
  obtain ⟨tb, hb⟩ := hb
  exact ⟨tb, by rw [run_alt, ha, hb]; rfl⟩

theorem first_opt {n : Nat} {a : Rx} {st e : St}
    (ha : First n a st e) : First n (.opt a) st e := by
  obtain ⟨ta, ha⟩ := ha
  exact ⟨ta ++ [st], by rw [run_opt, ha]; rfl⟩

theorem first_opt_skip {n : Nat} {a : Rx} {st : St}
    (ha : Rx.run n a st = []) : First n (.opt a) st st :=
  ⟨[], by rw [run_opt, ha]; rfl⟩

theorem first_cap {n : Nat} {a : Rx} (i : Nat) {st e : St} (ha : First n a st e) :
    First n (.cap i a) st (e.1, e.2.set i (st.1.take (st.1.length - e.1.length))) := by
  obtain ⟨ta, ha⟩ := ha
  exact ⟨_, by rw [run_cap, ha, List.map_cons]⟩

theorem first_star (n : Nat) (p : Char → Bool) (s : List Char) (g : Caps) :
    First n (.star p) (s, g) (s.dropWhile p, g) := by
  unfold First
  rw [run_star]
  simp only
  induction s with
  | nil => exact ⟨[], rfl⟩
  | cons c s ih =>
    obtain ⟨tl, ih⟩ := ih
    by_cases h : p c = true
    · exact ⟨tl ++ [(c :: s, g)], by rw [starRun, if_pos h, ih, List.dropWhile_cons_of_pos h]; rfl⟩
    · exact ⟨[], by rw [starRun, if_neg h, List.dropWhile_cons_of_neg h]⟩

theorem dropWhile_append_stop (p : Char → Bool) (w : List Char) (x : Char) (rest : List Char)
    (hw : ∀ c ∈ w, p c = true) (hx : p x = false) :
    (w ++ x :: rest).dropWhile p = x :: rest := by
  induction w with
  | nil => simp [hx]
  | cons c w ih =>
    rw [List.cons_append, List.dropWhile_cons_of_pos (hw c (List.mem_cons_self _ _))]
    exact ih (fun d hd => hw d (List.mem_cons_of_mem _ hd))

theorem dropWhile_all (p : Char → Bool) (w : List Char) (hw : ∀ c ∈ w, p c = true) :
    w.dropWhile p = [] := by
  induction w with
  | nil => rfl
  | cons c w ih =>
    rw [List.dropWhile_cons_of_pos (hw c (List.mem_cons_self _ _))]
    exact ih (fun d hd => hw d (List.mem_cons_of_mem _ hd))

/-- The first outcome of a class repeated at least once, followed by a stop character. -/
theorem first_plus_stop (n : Nat) (p : Char → Bool) (w : List Char) (x : Char)
    (rest : List Char) (g : Caps) (hne : w ≠ []) (hw : ∀ c ∈ w, p c = true)
    (hx : p x = false) : First n (plus p) (w ++ x :: rest, g) (x :: rest, g) := by
  cases w with
  | nil => exact absurd rfl hne
  | cons c w =>
    refine first_seq (first_cls n p c _ g (hw c (List.mem_cons_self _ _))) ?_
    have := first_star n p (w ++ x :: rest) g
    rwa [dropWhile_append_stop p w x rest (fun d hd => hw d (List.mem_cons_of_mem _ hd)) hx]
      at this

/-- The first outcome of a class repeated at least once, up to the end of the text. -/
theorem first_plus_end (n : Nat) (p : Char → Bool) (w : List Char) (g : Caps)
    (hne : w ≠ []) (hw : ∀ c ∈ w, p c = true) : First n (plus p) (w, g) ([], g) := by
  cases w with
  | nil => exact absurd rfl hne
  | cons c w =>
    refine first_seq (first_cls n p c _ g (hw c (List.mem_cons_self _ _))) ?_
    have := first_star n p w g
    rwa [dropWhile_all p w (fun d hd => hw d (List.mem_cons_of_mem _ hd))] at this

theorem run_plus_nil_of_not (n : Nat) (p : Char → Bool) (x : Char) (rest : List Char)
    (g : Caps) (hx : p x = false) : Rx.run n (plus p) (x :: rest, g) = [] := by
  rw [plus, run_seq, run_cls_cons, if_neg (by simp [hx])]
  rfl

theorem run_lit_nil (n : Nat) (c x : Char) (rest : List Char) (g : Caps) (h : x ≠ c) :
    Rx.run n (lit c) (x :: rest, g) = [] := by
  rw [lit, run_cls_cons, if_neg (by simpa using h)]

theorem take_sub_append (w t : List Char) :
    (w ++ t).take ((w ++ t).length - t.length) = w := by
  simp

/-- The optional sign group of slopeRx and interceptRx takes the sign when there is one. -/
theorem first_optSign (n : Nat) (sg t : List Char) (g : Caps) (hg : g.set 1 [] = g)
    (hsg : OptSign sg) (ht : ∀ d u, t = d :: u → d ≠ '+' ∧ d ≠ '-') :
    First n (.opt (.cap 1 sign)) (sg ++ t, g) (t, g.set 1 sg) := by
  rcases hsg with rfl | rfl | rfl
  · rw [hg, List.nil_append]
    apply first_opt_skip
    rw [run_cap]
    cases t with
    | nil => rfl
    | cons d u =>
      obtain ⟨h1, h2⟩ := ht d u rfl
      rw [sign, run_alt, run_lit_nil n _ _ _ _ h1, run_lit_nil n _ _ _ _ h2]
      rfl
  · have := first_cap 1 (first_alt_left (lit '-') (first_lit n '+' t g))
    simpa [sign] using first_opt this
  · have h0 : Rx.run n (lit '+') ('-' :: t, g) = [] := run_lit_nil n _ _ _ _ (by decide)
    have := first_cap 1 (first_alt_right h0 (first_lit n '-' t g))
    simpa [sign] using first_opt this

/-! ## The variable term of slopeRx -/

theorem span_unique (P : Char → Bool) :
    ∀ (u v : List Char) (p q : Char) (r t : List Char), (∀ c ∈ u, P c = true) →
      (∀ c ∈ v, P c = true) → P p = false → P q = false →
      u ++ p :: r = v ++ q :: t → u = v ∧ p = q ∧ r = t := by
  intro u
  induction u with
  | nil =>
    intro v p q r t _ hv hp _ h
    cases v with
    | nil => simpa using h
    | cons d v =>
      simp only [List.nil_append, List.cons_append, List.cons.injEq] at h
      have := hv d (List.mem_cons_self _ _)
      rw [← h.1, hp] at this
      exact absurd this (by simp)
  | cons c u ih =>
    intro v p q r t hu hv hp hq h
    cases v with
    | nil =>
      simp only [List.nil_append, List.cons_append, List.cons.injEq] at h
      have := hu c (List.mem_cons_self _ _)
      rw [h.1, hq] at this
      exact absurd this (by simp)
    | cons d v =>
      simp only [List.cons_append, List.cons.injEq] at h
      obtain ⟨h1, h2, h3⟩ := ih v p q r t (fun x hx => hu x (List.mem_cons_of_mem _ hx))
        (fun x hx => hv x (List.mem_cons_of_mem _ hx)) hp hq h.2
      exact ⟨by rw [h.1, h1], h2, h3⟩

theorem matchAt_of_first {r : Rx} {k n : Nat} {s : List Char} {e : St}
    (h : First n r (s, List.replicate (k + 1) []) e) :
    matchAt r k n s = some (e.2.set 0 (s.take (s.length - e.1.length))) := by
  obtain ⟨tl, h⟩ := h
  rw [matchAt, h]

theorem search_of_matchAt {r : Rx} {k n : Nat} {s : List Char} {g : Caps}
    (h : matchAt r k n s = some g) : search r k n s = some g := by
  cases s with
  | nil => exact h
  | cons c s => rw [search, h]

theorem search_skip (r : Rx) (k n : Nat) (rest : List Char) :
    ∀ a : List Char, (∀ a1 a2, a = a1 ++ a2 → a2 ≠ [] → matchAt r k n (a2 ++ rest) = none) →
      search r k n (a ++ rest) = search r k n rest := by
  intro a
  induction a with
  | nil => intro _; rfl
  | cons c a ih =>
    intro h
    have h0 := h [] (c :: a) rfl (by simp)
    rw [List.cons_append] at h0 ⊢
    rw [search, h0]
    exact ih (fun a1 a2 ha hne => h (c :: a1) a2 (by rw [ha]; rfl) hne)

theorem slopeRx_rx : slopeRx.rx = .seq (.opt (.cap 1 sign)) (.alt slopeIntAlt slopeDecAlt) := rfl

theorem digit_x : digit 'x' = false := by decide
theorem digit_dot : digit '.' = false := by decide
theorem nonzero_x : nonzero 'x' = false := by decide

theorem dropWhile_digit_nonzero (rest : List Char) :
    ∀ ds : List Char, (∀ c ∈ ds, digit c = true) →
      ((ds ++ 'x' :: rest).dropWhile nonzero).dropWhile digit = 'x' :: rest := by
  intro ds
  induction ds with
  | nil =>
    intro _
    rw [List.nil_append, List.dropWhile_cons_of_neg (by simp [nonzero_x]),
      List.dropWhile_cons_of_neg (by simp [digit_x])]
  | cons d ds ih =>
    intro h
    by_cases hd : nonzero d = true
    · rw [List.cons_append, List.dropWhile_cons_of_pos hd]
      exact ih (fun c hc => h c (List.mem_cons_of_mem _ hc))
    · rw [List.cons_append, List.dropWhile_cons_of_neg hd, ← List.cons_append]
      exact dropWhile_append_stop digit (d :: ds) 'x' rest h digit_x

theorem first_coef_empty (n : Nat) (rest : List Char) (g : Caps) :
    First n (.alt slopeIntAlt slopeDecAlt) ('x' :: rest, g) (rest, g) := by
  apply first_alt_left
  refine first_seq (first_opt_skip ?_) (first_lit n 'x' rest g)
  rw [run_cap, run_seq, run_plus_nil_of_not n nonzero 'x' rest g nonzero_x]
  rfl

theorem first_coef_posInt (n : Nat) (c rest : List Char) (g : Caps) (hc : PosInt c) :
    First n (.alt slopeIntAlt slopeDecAlt) (c ++ 'x' :: rest, g) (rest, g.set 2 c) := by
  obtain ⟨d, ds, hd, hds, rfl⟩ := hc
  apply first_alt_left
  have h1 : First n (.seq (plus nonzero) (.star digit)) (d :: ds ++ 'x' :: rest, g)
      ('x' :: rest, g) := by
    have ha := first_seq (first_cls n nonzero d (ds ++ 'x' :: rest) g hd)
      (first_star n nonzero (ds ++ 'x' :: rest) g)
    have hb := first_star n digit ((ds ++ 'x' :: rest).dropWhile nonzero) g
    rw [dropWhile_digit_nonzero rest ds hds] at hb
    exact first_seq ha hb
  have h2 := first_opt (first_cap 2 h1)
  simp only [take_sub_append] at h2
  exact first_seq h2 (first_lit n 'x' rest _)

theorem lang_slopeIntAlt (w : List Char) :
    slopeIntAlt.lang w ↔ ∃ c, (c = [] ∨ PosInt c) ∧ w = c ++ ['x'] := by
  unfold slopeIntAlt
  rw [lang_seq]
  simp only [lang_lit]
  constructor
  · rintro ⟨u, v, hu, rfl, rfl⟩
    rw [lang_opt, lang_cap, lang_posInt] at hu
    exact ⟨u, hu.symm, rfl⟩
  · rintro ⟨c, hc, rfl⟩
    refine ⟨c, ['x'], ?_, rfl, rfl⟩
    rw [lang_opt, lang_cap, lang_posInt]
    exact hc.symm

theorem lang_slopeDecAlt (w : List Char) :
    slopeDecAlt.lang w ↔ ∃ c, Decimal c ∧ w = c ++ ['x'] := by
  unfold slopeDecAlt
  rw [lang_seq]
  simp only [lang_cap, lang_decimal, lang_lit]
  constructor
  · rintro ⟨u, v, hu, rfl, rfl⟩
    exact ⟨u, hu, rfl⟩
  · rintro ⟨c, hc, rfl⟩
    exact ⟨c, ['x'], hc, rfl, rfl⟩

theorem posInt_digits {c : List Char} (h : PosInt c) : Digits c := by
  obtain ⟨d, ds, hd, hds, rfl⟩ := h
  refine ⟨by simp, ?_⟩
  intro x hx
  rcases List.mem_cons.mp hx with rfl | hx
  · exact nonzero_digit hd
  · exact hds x hx

theorem first_coef_decimal (n : Nat) (c rest : List Char) (g : Caps) (hc : Decimal c) :
    First n (.alt slopeIntAlt slopeDecAlt) (c ++ 'x' :: rest, g) (rest, g.set 3 c) := by
  obtain ⟨a, b, ha, hb, rfl⟩ := hc
  have hnil : Rx.run n slopeIntAlt ((a ++ '.' :: b) ++ 'x' :: rest, g) = [] := by
    rw [run_eq_nil_iff n _ (by simp [slopeIntAlt, plus, lit, Rx.anchorFree])]
    intro w t hw heq
    obtain ⟨c, hc, rfl⟩ := (lang_slopeIntAlt w).mp hw
    have hcd : ∀ x ∈ c, digit x = true := by
      rcases hc with rfl | hc
      · simp
      · exact (posInt_digits hc).2
    have h3 : a ++ '.' :: (b ++ 'x' :: rest) = c ++ 'x' :: t := by
      simpa using heq
    have := (span_unique digit a c '.' 'x' _ _ ha.2 hcd digit_dot digit_x h3).2.1
    exact absurd this (by decide)
  apply first_alt_right hnil
  have h1 : First n (.seq (plus digit) (.seq (lit '.') (plus digit)))
      ((a ++ '.' :: b) ++ 'x' :: rest, g) ('x' :: rest, g) := by
    have e1 : (a ++ '.' :: b) ++ 'x' :: rest = a ++ '.' :: (b ++ 'x' :: rest) := by simp
    rw [e1]
    exact first_seq (first_plus_stop n digit a '.' _ g ha.1 ha.2 digit_dot)
      (first_seq (first_lit n '.' _ g) (first_plus_stop n digit b 'x' rest g hb.1 hb.2 digit_x))
  have h2 := first_cap 3 h1
  simp only [take_sub_append] at h2
  exact first_seq h2 (first_lit n 'x' rest _)

/-! ## What slopeRx and interceptRx find -/

theorem numChar_of_digit {c : Char} (h : digit c = true) : numChar c = true := by
  simp [numChar, h]

theorem digits_numChar {w : List Char} (h : Digits w) : ∀ c ∈ w, numChar c = true :=
  fun c hc => numChar_of_digit (h.2 c hc)

theorem decimal_numChar {w : List Char} (h : Decimal w) : ∀ c ∈ w, numChar c = true := by
  obtain ⟨a, b, ha, hb, rfl⟩ := h
  intro c hc
  rcases List.mem_append.mp hc with hc | hc
  · exact numChar_of_digit (ha.2 c hc)
  · rcases List.mem_cons.mp hc with rfl | hc
    · rfl
    · exact numChar_of_digit (hb.2 c hc)

theorem n_numChar {w : List Char} (h : N w) : ∀ c ∈ w, numChar c = true := by
  rcases h with h | h
  · exact digits_numChar h
  · exact decimal_numChar h

theorem coef_numChar {w : List Char} (h : Coef w) : ∀ c ∈ w, numChar c = true := by
  rcases h with rfl | h | h
  · simp
  · exact digits_numChar (posInt_digits h)
  · exact decimal_numChar h

theorem numChar_ne {c : Char} (h : numChar c = true) :
    c ≠ '+' ∧ c ≠ '-' ∧ c ≠ 'x' ∧ c ≠ ' ' := by
  refine ⟨?_, ?_, ?_, ?_⟩ <;> rintro rfl <;> revert h <;> decide

theorem sign_chars {w : List Char} (h : Sign w) : ∀ c ∈ w, c = '+' ∨ c = '-' := by
  rcases h with rfl | rfl <;> simp

theorem optSign_chars {w : List Char} (h : OptSign w) : ∀ c ∈ w, c = '+' ∨ c = '-' := by
  rcases h with rfl | h
  · simp
  · exact sign_chars h

theorem matchAt_slopeRx (n : Nat) (sg c rest : List Char) (hsg : OptSign sg) (hc : Coef c) :
    ∃ m2 m3, matchAt slopeRx.rx 3 n (sg ++ (c ++ 'x' :: rest)) =
        some [sg ++ (c ++ ['x']), sg, m2, m3] ∧
      ((m2 = c ∧ m3 = []) ∨ (m2 = [] ∧ m3 = c)) := by
  have hhead : ∀ d u, c ++ 'x' :: rest = d :: u → d ≠ '+' ∧ d ≠ '-' := by
    intro d u h
    cases c with
    | nil =>
      simp only [List.nil_append, List.cons.injEq] at h
      rw [← h.1]
      decide
    | cons e c =>
      simp only [List.cons_append, List.cons.injEq] at h
      have := numChar_ne (coef_numChar hc e (List.mem_cons_self _ _))
      rw [← h.1]
      exact ⟨this.1, this.2.1⟩
  have h1 := first_optSign n sg (c ++ 'x' :: rest) (List.replicate (3 + 1) []) rfl hsg hhead
  have key : ∀ g2 : Caps, First n (.alt slopeIntAlt slopeDecAlt) (c ++ 'x' :: rest,
      (List.replicate (3 + 1) []).set 1 sg) (rest, g2) →
      matchAt slopeRx.rx 3 n (sg ++ (c ++ 'x' :: rest)) =
        some (g2.set 0 (sg ++ (c ++ ['x']))) := by
    intro g2 h2
    rw [slopeRx_rx, matchAt_of_first (first_seq h1 h2)]
    have : sg ++ (c ++ 'x' :: rest) = (sg ++ (c ++ ['x'])) ++ rest := by simp
    simp only [this, take_sub_append]
  rcases hc with rfl | hc | hc
  · refine ⟨[], [], ?_, Or.inl ⟨rfl, rfl⟩⟩
    rw [key _ (first_coef_empty n rest _)]
    rfl
  · refine ⟨c, [], ?_, Or.inl ⟨rfl, rfl⟩⟩
    rw [key _ (first_coef_posInt n c rest _ hc)]
    rfl
  · refine ⟨[], c, ?_, Or.inr ⟨rfl, rfl⟩⟩
    rw [key _ (first_coef_decimal n c rest _ hc)]
    rfl

theorem first_number (n : Nat) (k : List Char) (g : Caps) (hk : N k) :
    First n number (k, g) ([], g) := by
  have hopt : First n (.opt (.seq (lit '.') (plus digit))) ([], g) ([], g) :=
    first_opt_skip rfl
  rcases hk with hk | ⟨a, b, ha, hb, rfl⟩
  · exact first_seq (first_plus_end n digit k g hk.1 hk.2)
      (first_seq (first_star n digit [] g) hopt)
  · have h2 := first_star n digit ('.' :: b) g
    rw [List.dropWhile_cons_of_neg (by simp [digit_dot])] at h2
    exact first_seq (first_plus_stop n digit a '.' b g ha.1 ha.2 digit_dot)
      (first_seq h2 (first_opt (first_seq (first_lit n '.' b g)
        (first_plus_end n digit b g hb.1 hb.2))))

theorem matchAt_interceptRx (n : Nat) (sg k : List Char) (hsg : OptSign sg) (hk : N k) :
    matchAt interceptRx.rx 2 n (sg ++ k) = some [sg ++ k, sg, k] := by
  have hhead : ∀ d u, k = d :: u → d ≠ '+' ∧ d ≠ '-' := by
    intro d u h
    have := numChar_ne (n_numChar hk d (h ▸ List.mem_cons_self _ _))
    exact ⟨this.1, this.2.1⟩
  have h1 := first_optSign n sg k (List.replicate (2 + 1) []) rfl hsg hhead
  have h2 := first_cap 2 (first_number n k ((List.replicate (2 + 1) []).set 1 sg) hk)
  have h3 : First n interceptRx.rx (sg ++ k, List.replicate (2 + 1) []) _ := first_seq h1 h2
  rw [matchAt_of_first h3]
  simp

theorem interceptRx_nil (n : Nat) : search interceptRx.rx 2 n [] = none := rfl

theorem lang_slopeRx (w : List Char) :
    slopeRx.rx.lang w ↔ ∃ sg c, OptSign sg ∧ Coef c ∧ w = sg ++ (c ++ ['x']) := by
  rw [slopeRx_rx, lang_seq]
  simp only [lang_opt, lang_cap, lang_sign, lang_alt, lang_slopeIntAlt, lang_slopeDecAlt]
  constructor
  · rintro ⟨sg, v, hsg, hv, rfl⟩
    have hsg2 : OptSign sg := hsg.symm
    rcases hv with ⟨c, hc, rfl⟩ | ⟨c, hc, rfl⟩
    · exact ⟨sg, c, hsg2, by unfold Coef; tauto, rfl⟩
    · exact ⟨sg, c, hsg2, Or.inr (Or.inr hc), rfl⟩
  · rintro ⟨sg, c, hsg, hc, rfl⟩
    refine ⟨sg, c ++ ['x'], hsg.symm, ?_, rfl⟩
    rcases hc with hc | hc | hc
    · exact Or.inl ⟨c, Or.inl hc, rfl⟩
    · exact Or.inl ⟨c, Or.inr hc, rfl⟩
    · exact Or.inr ⟨c, hc, rfl⟩

theorem anchorFree_slopeRx : slopeRx.rx.anchorFree := by
  simp [slopeRx, sign, plus, lit, Rx.anchorFree]

/-- No match of slopeRx starts inside the constant of an intercept-first string. -/
theorem matchAt_slopeRx_none (n : Nat) (a2 s2 c : List Char) (ha2 : a2 ≠ [])
    (ha : ∀ ch ∈ a2, ch ≠ 'x') (hs2 : Sign s2) (hc : Coef c) :
    matchAt slopeRx.rx 3 n (a2 ++ (s2 ++ (c ++ ['x']))) = none := by
  rw [matchAt_eq_none, run_eq_nil_iff n _ anchorFree_slopeRx]
  intro w t hw heq
  obtain ⟨sg, c2, hsg, hc2, rfl⟩ := (lang_slopeRx w).mp hw
  have hx1 : 'x' ∉ a2 ++ (s2 ++ c) := by
    intro hm
    rcases List.mem_append.mp hm with hm | hm
    · exact ha _ hm rfl
    · rcases List.mem_append.mp hm with hm | hm
      · rcases sign_chars hs2 _ hm with h | h <;> exact absurd h (by decide)
      · exact (numChar_ne (coef_numChar hc _ hm)).2.2.1 rfl
  have hx2 : 'x' ∉ sg ++ c2 := by
    intro hm
    rcases List.mem_append.mp hm with hm | hm
    · rcases optSign_chars hsg _ hm with h | h <;> exact absurd h (by decide)
    · exact (numChar_ne (coef_numChar hc2 _ hm)).2.2.1 rfl
  have h3 : (a2 ++ (s2 ++ c)) ++ 'x' :: [] = (sg ++ c2) ++ 'x' :: t := by
    simpa using heq
  have h4 := (split_unique 'x' _ _ _ _ hx1 hx2 h3).1
  have hsgn : ∃ σ, σ ∈ s2 ∧ (σ = '+' ∨ σ = '-') := by
    rcases hs2 with rfl | rfl
    · exact ⟨'+', by simp, Or.inl rfl⟩
    · exact ⟨'-', by simp, Or.inr rfl⟩
  obtain ⟨σ, hσ, hσ2⟩ := hsgn
  have hno : ∀ u : List Char, σ ∈ u → ¬ ∀ ch ∈ u, numChar ch = true := by
    intro u hu hall
    have := numChar_ne (hall σ hu)
    rcases hσ2 with h | h
    · exact this.1 h
    · exact this.2.1 h
  cases a2 with
  | nil => exact ha2 rfl
  | cons h a3 =>
    rcases hsg with rfl | hsg
    · rw [List.nil_append] at h4
      exact hno c2 (h4 ▸ by simp [hσ]) (coef_numChar hc2)
    · have : ∃ τ, sg = [τ] := by
        rcases hsg with rfl | rfl
        · exact ⟨_, rfl⟩
        · exact ⟨_, rfl⟩
      obtain ⟨τ, rfl⟩ := this
      simp only [List.cons_append, List.nil_append, List.cons.injEq] at h4
      exact hno c2 (h4.2 ▸ by simp [hσ]) (coef_numChar hc2)

/-! ## NewFromString on the two shapes -/

theorem newFromString_eval_nil (str t m0 m1 m2 m3 : List Char) (hv : IsValid str = true)
    (ht : removeSpaces str = t) (hf : slopeRx.FindStringSubmatch t = [m0, m1, m2, m3])
    (hi : interceptRx.FindStringSubmatch (ReplaceAll t m0 []) = []) :
    NewFromString str = .ok ⟨signed m1 (if m2 ≠ [] then ParseFloat m2
      else if m3 ≠ [] then ParseFloat m3 else 1), 0⟩ := by
  unfold NewFromString
  simp only [hv, ht, hf, hi, signed, index]
  by_cases h2 : m2 = [] <;> by_cases h3 : m3 = [] <;>
    simp [h2, h3, hi, bind, Except.bind, pure, Except.pure]

theorem newFromString_eval_cons (str t m0 m1 m2 m3 i0 i1 i2 : List Char)
    (hv : IsValid str = true)
    (ht : removeSpaces str = t) (hf : slopeRx.FindStringSubmatch t = [m0, m1, m2, m3])
    (hi : interceptRx.FindStringSubmatch (ReplaceAll t m0 []) = [i0, i1, i2]) :
    NewFromString str = .ok ⟨signed m1 (if m2 ≠ [] then ParseFloat m2
      else if m3 ≠ [] then ParseFloat m3 else 1), signed i1 (ParseFloat i2)⟩ := by
  unfold NewFromString
  simp only [hv, ht, hf, hi, signed, index]
  by_cases h2 : m2 = [] <;> by_cases h3 : m3 = [] <;>
    simp [h2, h3, hi, bind, Except.bind, pure, Except.pure]

theorem find_slope_slopeFirst (s1 c tl : List Char) (hs1 : OptSign s1) (hc : Coef c) :
    ∃ m2 m3, slopeRx.FindStringSubmatch (s1 ++ (c ++ 'x' :: tl)) =
        [s1 ++ (c ++ ['x']), s1, m2, m3] ∧ ((m2 = c ∧ m3 = []) ∨ (m2 = [] ∧ m3 = c)) := by
  obtain ⟨m2, m3, hm, h⟩ := matchAt_slopeRx (s1 ++ (c ++ 'x' :: tl)).length s1 c tl hs1 hc
  refine ⟨m2, m3, ?_, h⟩
  unfold Regexp.FindStringSubmatch
  rw [show slopeRx.numSubexp = 3 from rfl, search_of_matchAt hm]
  rfl

theorem find_slope_interceptFirst (s1 k s2 c : List Char) (hs1 : OptSign s1) (hk : N k)
    (hs2 : Sign s2) (hc : Coef c) :
    ∃ m2 m3, slopeRx.FindStringSubmatch ((s1 ++ k) ++ (s2 ++ (c ++ ['x']))) =
        [s2 ++ (c ++ ['x']), s2, m2, m3] ∧ ((m2 = c ∧ m3 = []) ∨ (m2 = [] ∧ m3 = c)) := by
  obtain ⟨m2, m3, hm, h⟩ :=
    matchAt_slopeRx ((s1 ++ k) ++ (s2 ++ (c ++ ['x']))).length s2 c [] (Or.inr hs2) hc
  refine ⟨m2, m3, ?_, h⟩
  unfold Regexp.FindStringSubmatch
  rw [show slopeRx.numSubexp = 3 from rfl, search_skip, search_of_matchAt hm]
  · rfl
  · intro a1 a2 ha hne
    apply matchAt_slopeRx_none _ a2 s2 c hne _ hs2 hc
    intro ch hch
    have hmem : ch ∈ s1 ++ k := by
      rw [ha]
      exact List.mem_append_right _ hch
    rcases List.mem_append.mp hmem with hm | hm
    · rcases optSign_chars hs1 _ hm with h | h <;> rw [h] <;> decide
    · exact (numChar_ne (n_numChar hk _ hm)).2.2.1

theorem find_intercept (sg k : List Char) (hsg : OptSign sg) (hk : N k) :
    interceptRx.FindStringSubmatch (sg ++ k) = [sg ++ k, sg, k] := by
  unfold Regexp.FindStringSubmatch
  rw [show interceptRx.numSubexp = 2 from rfl,
    search_of_matchAt (matchAt_interceptRx (sg ++ k).length sg k hsg hk)]
  rfl

theorem find_intercept_nil : interceptRx.FindStringSubmatch [] = [] := rfl

theorem magnitude_eq (c m2 m3 : List Char) (h : (m2 = c ∧ m3 = []) ∨ (m2 = [] ∧ m3 = c)) :
    (if m2 ≠ [] then ParseFloat m2 else if m3 ≠ [] then ParseFloat m3 else 1) =
      coefMagnitude c := by
  unfold coefMagnitude
  rcases h with ⟨rfl, rfl⟩ | ⟨rfl, rfl⟩
  · by_cases h : m2 = [] <;> simp [h]
  · by_cases h : m3 = [] <;> simp [h]

theorem not_mem_x_sign_coef (s c : List Char) (hs : OptSign s) (hc : Coef c) :
    'x' ∉ s ++ c := by
  intro hm
  rcases List.mem_append.mp hm with hm | hm
  · rcases optSign_chars hs _ hm with h | h <;> exact absurd h (by decide)
  · exact (numChar_ne (coef_numChar hc _ hm)).2.2.1 rfl

theorem not_mem_x_sign_n (s k : List Char) (hs : OptSign s) (hk : N k) :
    'x' ∉ s ++ k := by
  intro hm
  rcases List.mem_append.mp hm with hm | hm
  · rcases optSign_chars hs _ hm with h | h <;> exact absurd h (by decide)
  · exact (numChar_ne (n_numChar hk _ hm)).2.2.1 rfl

theorem replace_slopeFirst_bare (s1 c : List Char) (hs1 : OptSign s1) (hc : Coef c) :
    ReplaceAll (s1 ++ (c ++ ['x'])) (s1 ++ (c ++ ['x'])) [] = [] := by
  have := replaceAll_remove 'x' (s1 ++ c) [] (not_mem_x_sign_coef s1 c hs1 hc) (by simp) []
    (by simp)
  simpa using this

theorem replace_slopeFirst_const (s1 c s2 k : List Char) (hs1 : OptSign s1) (hc : Coef c)
    (hs2 : Sign s2) (hk : N k) :
    ReplaceAll (s1 ++ (c ++ 'x' :: (s2 ++ k))) (s1 ++ (c ++ ['x'])) [] = s2 ++ k := by
  have := replaceAll_remove 'x' (s1 ++ c) (s2 ++ k) (not_mem_x_sign_coef s1 c hs1 hc)
    (not_mem_x_sign_n s2 k (Or.inr hs2) hk) [] (by simp)
  simpa using this

theorem replace_interceptFirst (s1 k s2 c : List Char) (hs1 : OptSign s1) (hk : N k)
    (hs2 : Sign s2) (hc : Coef c) :
    ReplaceAll ((s1 ++ k) ++ (s2 ++ (c ++ ['x']))) (s2 ++ (c ++ ['x'])) [] = s1 ++ k := by
  have := replaceAll_remove 'x' (s2 ++ c) [] (not_mem_x_sign_coef s2 c (Or.inr hs2) hc)
    (by simp) (s1 ++ k) (not_mem_x_sign_n s1 k hs1 hk)
  simpa using this

theorem newFromString_slopeFirst_bare (str s1 c : List Char) (hs1 : OptSign s1) (hc : Coef c)
    (h : removeSpaces str = s1 ++ (c ++ ['x'])) :
    NewFromString str = .ok ⟨signed s1 (coefMagnitude c), 0⟩ := by
  have hv : IsValid str = true := by
    rw [isValid_iff_derives, h]
    exact Or.inl ⟨s1, c ++ ['x'], hs1, ⟨c, hc, rfl⟩, Or.inl rfl⟩
  obtain ⟨m2, m3, hf, hm⟩ := find_slope_slopeFirst s1 c [] hs1 hc
  have hr := replace_slopeFirst_bare s1 c hs1 hc
  rw [newFromString_eval_nil str _ _ _ _ _ hv h hf (by rw [hr]; rfl), magnitude_eq c m2 m3 hm]

theorem newFromString_slopeFirst_const (str s1 c s2 k : List Char) (hs1 : OptSign s1)
    (hc : Coef c) (hs2 : Sign s2) (hk : N k)
    (h : removeSpaces str = s1 ++ (c ++ 'x' :: (s2 ++ k))) :
    NewFromString str = .ok ⟨signed s1 (coefMagnitude c), signed s2 (ParseFloat k)⟩ := by
  have hv : IsValid str = true := by
    rw [isValid_iff_derives, h]
    exact Or.inl ⟨s1, c ++ ['x'], hs1, ⟨c, hc, rfl⟩, Or.inr ⟨s2, k, hs2, hk, by simp⟩⟩
  obtain ⟨m2, m3, hf, hm⟩ := find_slope_slopeFirst s1 c (s2 ++ k) hs1 hc
  have hr := replace_slopeFirst_const s1 c s2 k hs1 hc hs2 hk
  rw [newFromString_eval_cons str _ _ _ _ _ _ _ _ hv h hf
    (by rw [hr]; exact find_intercept s2 k (Or.inr hs2) hk), magnitude_eq c m2 m3 hm]

theorem newFromString_interceptFirst (str s1 k s2 c : List Char) (hs1 : OptSign s1)
    (hk : N k) (hs2 : Sign s2) (hc : Coef c)
    (h : removeSpaces str = (s1 ++ k) ++ (s2 ++ (c ++ ['x']))) :
    NewFromString str = .ok ⟨signed s2 (coefMagnitude c), signed s1 (ParseFloat k)⟩ := by
  have hv : IsValid str = true := by
    rw [isValid_iff_derives, h]
    exact Or.inr ⟨s1, k, s2, c ++ ['x'], hs1, hk, hs2, ⟨c, hc, rfl⟩, by simp⟩
  obtain ⟨m2, m3, hf, hm⟩ := find_slope_interceptFirst s1 k s2 c hs1 hk hs2 hc
  have hr := replace_interceptFirst s1 k s2 c hs1 hk hs2 hc
  rw [newFromString_eval_cons str _ _ _ _ _ _ _ _ hv h hf
    (by rw [hr]; exact find_intercept s1 k hs1 hk), magnitude_eq c m2 m3 hm]

/-! ## Values -/

theorem natOfDigits_append (a b : List Char) :
    natOfDigits (a ++ b) = natOfDigits a * 10 ^ b.length + natOfDigits b := by
  unfold natOfDigits
  rw [List.foldl_append]
  generalize List.foldl (fun a c => 10 * a + (c.toNat - 48)) 0 a = x
  induction b generalizing x with
  | nil => simp
  | cons c b ih =>
    rw [List.foldl_cons, ih, List.foldl_cons, ih (10 * 0 + (c.toNat - 48))]
    simp only [List.length_cons, pow_succ]
    ring

theorem takeWhile_append_stop (p : Char → Bool) (w : List Char) (x : Char) (rest : List Char)
    (hw : ∀ c ∈ w, p c = true) (hx : p x = false) :
    (w ++ x :: rest).takeWhile p = w := by
  induction w with
  | nil => simp [hx]
  | cons c w ih =>
    rw [List.cons_append, List.takeWhile_cons_of_pos (hw c (List.mem_cons_self _ _)),
      ih (fun d hd => hw d (List.mem_cons_of_mem _ hd))]

theorem takeWhile_all (p : Char → Bool) (w : List Char) (hw : ∀ c ∈ w, p c = true) :
    w.takeWhile p = w := by
  induction w with
  | nil => rfl
  | cons c w ih =>
    rw [List.takeWhile_cons_of_pos (hw c (List.mem_cons_self _ _)),
      ih (fun d hd => hw d (List.mem_cons_of_mem _ hd))]

theorem digit_ne_dot {c : Char} (h : digit c = true) : (c != '.') = true := by
  have := numChar_ne (numChar_of_digit h)
  rw [bne_iff_ne]
  rintro rfl
  revert h
  decide

theorem parseFloat_digits (w : List Char) (h : Digits w) :
    ParseFloat w = (natOfDigits w : ℚ) := by
  unfold ParseFloat
  simp only [takeWhile_all digit w h.2, dropWhile_all digit w h.2, h.1, if_false]

theorem parseFloat_decimal (a b : List Char) (ha : Digits a) (hb : Digits b) :
    ParseFloat (a ++ '.' :: b) = (natOfDigits a : ℚ) + (natOfDigits b : ℚ) / 10 ^ b.length := by
  unfold ParseFloat
  simp only [takeWhile_append_stop digit a '.' b ha.2 digit_dot,
    dropWhile_append_stop digit a '.' b ha.2 digit_dot]
  rw [if_pos]
  refine ⟨trivial, ?_, Or.inl ha.1⟩
  rw [List.all_eq_true]
  exact hb.2

theorem decimalValue_digits (w : List Char) (h : Digits w) :
    decimalValue w = (natOfDigits w : ℚ) := by
  unfold decimalValue
  have h1 : ∀ c ∈ w, (fun c => c != '.') c = true := fun c hc => digit_ne_dot (h.2 c hc)
  rw [List.filter_eq_self.mpr h1, dropWhile_all _ w h1]
  simp

theorem decimalValue_decimal (a b : List Char) (ha : Digits a) (hb : Digits b) :
    decimalValue (a ++ '.' :: b) =
      (natOfDigits a : ℚ) + (natOfDigits b : ℚ) / 10 ^ b.length := by
  unfold decimalValue
  have h1 : ∀ c ∈ a, (fun c => c != '.') c = true := fun c hc => digit_ne_dot (ha.2 c hc)
  have h2 : ∀ c ∈ b, (fun c => c != '.') c = true := fun c hc => digit_ne_dot (hb.2 c hc)
  rw [dropWhile_append_stop _ a '.' b h1 (by simp), List.filter_append,
    List.filter_eq_self.mpr h1, List.filter_cons_of_neg (by simp), List.filter_eq_self.mpr h2,
    natOfDigits_append]
  simp only [List.length_cons, Nat.add_sub_cancel, Nat.cast_add, Nat.cast_mul, Nat.cast_pow,
    Nat.cast_ofNat]
  field_simp

theorem parseFloat_n (k : List Char) (h : N k) : ParseFloat k = decimalValue k := by
  rcases h with h | ⟨a, b, ha, hb, rfl⟩
  · rw [parseFloat_digits k h, decimalValue_digits k h]
  · rw [parseFloat_decimal a b ha hb, decimalValue_decimal a b ha hb]

theorem coefMagnitude_eq (c : List Char) (h : Coef c) : coefMagnitude c = val c := by
  unfold coefMagnitude val
  rcases h with rfl | h | h
  · simp
  · rw [parseFloat_n c (Or.inl (posInt_digits h))]
  · rw [parseFloat_n c (Or.inr h)]

theorem signed_eq (s : List Char) (v : ℚ) : signed s v = sgn s * v := by
  unfold signed sgn
  split <;> simp

theorem valid_cases (w : List Char) (h : Derives w) :
    (∃ s1 c, OptSign s1 ∧ Coef c ∧ w = s1 ++ (c ++ ['x'])) ∨
    (∃ s1 c s2 k, OptSign s1 ∧ Coef c ∧ Sign s2 ∧ N k ∧ w = s1 ++ (c ++ 'x' :: (s2 ++ k))) ∨
    (∃ s1 k s2 c, OptSign s1 ∧ N k ∧ Sign s2 ∧ Coef c ∧
      w = (s1 ++ k) ++ (s2 ++ (c ++ ['x']))) := by
  rcases h with ⟨s1, t, hs1, ⟨c, hc, rfl⟩, h⟩ | ⟨s1, k, s2, t, hs1, hk, hs2, ⟨c, hc, rfl⟩, rfl⟩
  · rcases h with rfl | ⟨s2, k, hs2, hk, rfl⟩
    · exact Or.inl ⟨s1, c, hs1, hc, rfl⟩
    · exact Or.inr (Or.inl ⟨s1, c, s2, k, hs1, hc, hs2, hk, by simp⟩)
  · exact Or.inr (Or.inr ⟨s1, k, s2, c, hs1, hk, hs2, hc, by simp⟩)

theorem no_space_sign_n (s k : List Char) (hs : OptSign s) (hk : N k) : ' ' ∉ s ++ k := by
  intro hm
  rcases List.mem_append.mp hm with hm | hm
  · rcases optSign_chars hs _ hm with h | h <;> exact absurd h (by decide)
  · exact (numChar_ne (n_numChar hk _ hm)).2.2.2 rfl

theorem no_space_sign_coef_x (s c : List Char) (hs : OptSign s) (hc : Coef c) :
    ' ' ∉ s ++ (c ++ ['x']) := by
  intro hm
  rcases List.mem_append.mp hm with hm | hm
  · rcases optSign_chars hs _ hm with h | h <;> exact absurd h (by decide)
  · rcases List.mem_append.mp hm with hm | hm
    · exact (numChar_ne (coef_numChar hc _ hm)).2.2.2 rfl
    · simp at hm

/-! ## Properties of the specification -/

/-- The intercept-first shape in exact arithmetic (ParseFloat without rounding). For an
optional sign s1, a constant k, a mandatory sign s2 and a coefficient c, the exact
NewFromString of s1 ++ k ++ s2 ++ c ++ "x" has slope sgn s2 * val c and intercept
sgn s1 * (value of k): the operator between the constant and the variable term is the
sign of the slope, the leading sign that of the intercept. -/
theorem newFromString_interceptFirst_shape (s1 k s2 c : List Char) (hs1 : OptSign s1)
    (hk : N k) (hs2 : Sign s2) (hc : Coef c) :
    NewFromString (s1 ++ k ++ s2 ++ c ++ ['x']) =
      .ok ⟨sgn s2 * val c, sgn s1 * decimalValue k⟩ := by
  have e : s1 ++ k ++ s2 ++ c ++ ['x'] = (s1 ++ k) ++ (s2 ++ (c ++ ['x'])) := by simp
  have hsp : removeSpaces ((s1 ++ k) ++ (s2 ++ (c ++ ['x']))) =
      (s1 ++ k) ++ (s2 ++ (c ++ ['x'])) := by
    apply removeSpaces_of_not_mem
    intro hm
    rcases List.mem_append.mp hm with hm | hm
    · exact no_space_sign_n s1 k hs1 hk hm
    · exact no_space_sign_coef_x s2 c (Or.inr hs2) hc hm
  rw [e, newFromString_interceptFirst _ s1 k s2 c hs1 hk hs2 hc hsp, signed_eq, signed_eq,
    coefMagnitude_eq c hc, parseFloat_n k hk]

/-- The exact-arithmetic intercept-first shape at "3-x" (slope -1, intercept 3) and at
"-1.5-2.3x" (slope -23/10, intercept -3/2, before any rounding). -/
theorem newFromString_interceptFirst_shape_witness :
    NewFromString "3-x".toList = .ok ⟨-1, 3⟩ ∧
    NewFromString "-1.5-2.3x".toList = .ok ⟨-23 / 10, -3 / 2⟩ := by
  have d1 : Digits ['1'] := ⟨by decide, by decide⟩
  have d2 : Digits ['2'] := ⟨by decide, by decide⟩
  have d3 : Digits ['3'] := ⟨by decide, by decide⟩
  have d5 : Digits ['5'] := ⟨by decide, by decide⟩
  have h1 := newFromString_interceptFirst_shape [] ['3'] ['-'] [] (Or.inl rfl) (Or.inl d3)
    (Or.inr rfl) (Or.inl rfl)
  have h2 := newFromString_interceptFirst_shape ['-'] ['1', '.', '5'] ['-'] ['2', '.', '3']
    (Or.inr (Or.inr rfl)) (Or.inr ⟨['1'], ['5'], d1, d5, rfl⟩) (Or.inr rfl)
    (Or.inr (Or.inr ⟨['2'], ['3'], d2, d3, rfl⟩))
  have v3 : decimalValue ['3'] = 3 := by
    rw [decimalValue_digits _ d3, show natOfDigits ['3'] = 3 from by decide]
    norm_num
  have v15 : decimalValue ['1', '.', '5'] = 3 / 2 := by
    have h := decimalValue_decimal ['1'] ['5'] d1 d5
    rw [show natOfDigits ['1'] = 1 from by decide, show natOfDigits ['5'] = 5 from by decide] at h
    exact h.trans (by norm_num)
  have v23 : decimalValue ['2', '.', '3'] = 23 / 10 := by
    have h := decimalValue_decimal ['2'] ['3'] d2 d3
    rw [show natOfDigits ['2'] = 2 from by decide, show natOfDigits ['3'] = 3 from by decide] at h
    exact h.trans (by norm_num)
  constructor
  · rw [show "3-x".toList = [] ++ ['3'] ++ ['-'] ++ [] ++ ['x'] from rfl, h1, v3]
    norm_num [sgn, val]
  · rw [show "-1.5-2.3x".toList = ['-'] ++ ['1', '.', '5'] ++ ['-'] ++ ['2', '.', '3'] ++ ['x']
      from rfl, h2, v15]
    have : val ['2', '.', '3'] = 23 / 10 := by
      rw [val, if_neg (by simp), v23]
    rw [this]
    norm_num [sgn]

/-- The slope-first shape in exact arithmetic (ParseFloat without rounding). For an
optional sign s1 and a coefficient c, the exact NewFromString of s1 ++ c ++ "x" has slope
sgn s1 * val c and intercept 0, and with a constant term s2 ++ k appended it has the same
slope and intercept sgn s2 * (value of k). -/
theorem newFromString_slopeFirst_shape (s1 c : List Char) (hs1 : OptSign s1) (hc : Coef c) :
    NewFromString (s1 ++ c ++ ['x']) = .ok ⟨sgn s1 * val c, 0⟩ ∧
    ∀ s2 k, Sign s2 → N k →
      NewFromString (s1 ++ c ++ ['x'] ++ s2 ++ k) =
        .ok ⟨sgn s1 * val c, sgn s2 * decimalValue k⟩ := by
  constructor
  · have e : s1 ++ c ++ ['x'] = s1 ++ (c ++ ['x']) := by simp
    have hsp : removeSpaces (s1 ++ (c ++ ['x'])) = s1 ++ (c ++ ['x']) :=
      removeSpaces_of_not_mem _ (no_space_sign_coef_x s1 c hs1 hc)
    rw [e, newFromString_slopeFirst_bare _ s1 c hs1 hc hsp, signed_eq, coefMagnitude_eq c hc]
  · intro s2 k hs2 hk
    have e : s1 ++ c ++ ['x'] ++ s2 ++ k = s1 ++ (c ++ 'x' :: (s2 ++ k)) := by simp
    have hsp : removeSpaces (s1 ++ (c ++ 'x' :: (s2 ++ k))) = s1 ++ (c ++ 'x' :: (s2 ++ k)) := by
      apply removeSpaces_of_not_mem
      intro hm
      have e2 : s1 ++ (c ++ 'x' :: (s2 ++ k)) = (s1 ++ (c ++ ['x'])) ++ (s2 ++ k) := by simp
      rw [e2] at hm
      rcases List.mem_append.mp hm with hm | hm
      · exact no_space_sign_coef_x s1 c hs1 hc hm
      · exact no_space_sign_n s2 k (Or.inr hs2) hk hm
    rw [e, newFromString_slopeFirst_const _ s1 c s2 k hs1 hc hs2 hk hsp, signed_eq, signed_eq,
      coefMagnitude_eq c hc, parseFloat_n k hk]

/-- The exact-arithmetic slope-first shape at "3x" (slope 3, intercept 0) and at "-20x-3"
(slope -20, intercept -3). -/
theorem newFromString_slopeFirst_shape_witness :
    NewFromString "3x".toList = .ok ⟨3, 0⟩ ∧
    NewFromString "-20x-3".toList = .ok ⟨-20, -3⟩ := by
  have d3 : Digits ['3'] := ⟨by decide, by decide⟩
  have d20 : Digits ['2', '0'] := ⟨by decide, by decide⟩
  have p3 : PosInt ['3'] := ⟨'3', [], by decide, by decide, rfl⟩
  have p20 : PosInt ['2', '0'] := ⟨'2', ['0'], by decide, by decide, rfl⟩
  have h1 := (newFromString_slopeFirst_shape [] ['3'] (Or.inl rfl) (Or.inr (Or.inl p3))).1
  have h2 := (newFromString_slopeFirst_shape ['-'] ['2', '0'] (Or.inr (Or.inr rfl))
    (Or.inr (Or.inl p20))).2 ['-'] ['3'] (Or.inr rfl) (Or.inl d3)
  have v3 : decimalValue ['3'] = 3 := by
    rw [decimalValue_digits _ d3, show natOfDigits ['3'] = 3 from by decide]
    norm_num
  have v20 : decimalValue ['2', '0'] = 20 := by
    rw [decimalValue_digits _ d20, show natOfDigits ['2', '0'] = 20 from by decide]
    norm_num
  constructor
  · rw [show "3x".toList = [] ++ ['3'] ++ ['x'] from rfl, h1, val, if_neg (by simp), v3]
    norm_num [sgn]
  · rw [show "-20x-3".toList = ['-'] ++ ['2', '0'] ++ ['x'] ++ ['-'] ++ ['3'] from rfl, h2, val,
      if_neg (by simp), v3, v20]
    norm_num [sgn]

/-- C3: on a valid string NewFromString does not panic. slopeRx finds a match in the
stripped string, so slopeMatches has its four entries (indices 0 to 3 are in range), the
submatches of interceptRx are either nil or have three entries (indices 1 and 2 are in
range), and a LinearFunction is returned. -/
theorem newFromString_no_panic (s : List Char) (h : IsValid s = true) :
    ∃ m0 m1 m2 m3, slopeRx.FindStringSubmatch (removeSpaces s) = [m0, m1, m2, m3] ∧
      (interceptRx.FindStringSubmatch (ReplaceAll (removeSpaces s) m0 []) = [] ∨
        ∃ i0 i1 i2,
          interceptRx.FindStringSubmatch (ReplaceAll (removeSpaces s) m0 []) = [i0, i1, i2]) ∧
      ∃ lf, NewFromString s = .ok lf := by
  rcases valid_cases _ ((isValid_iff_derives s).mp h) with
    ⟨s1, c, hs1, hc, hw⟩ | ⟨s1, c, s2, k, hs1, hc, hs2, hk, hw⟩ |
    ⟨s1, k, s2, c, hs1, hk, hs2, hc, hw⟩
  · obtain ⟨m2, m3, hf, -⟩ := find_slope_slopeFirst s1 c [] hs1 hc
    refine ⟨_, _, m2, m3, by rw [hw]; exact hf, Or.inl ?_, _,
      newFromString_slopeFirst_bare s s1 c hs1 hc hw⟩
    rw [hw, replace_slopeFirst_bare s1 c hs1 hc]
    rfl
  · obtain ⟨m2, m3, hf, -⟩ := find_slope_slopeFirst s1 c (s2 ++ k) hs1 hc
    refine ⟨_, _, m2, m3, by rw [hw]; exact hf, Or.inr ⟨s2 ++ k, s2, k, ?_⟩, _,
      newFromString_slopeFirst_const s s1 c s2 k hs1 hc hs2 hk hw⟩
    rw [hw, replace_slopeFirst_const s1 c s2 k hs1 hc hs2 hk]
    exact find_intercept s2 k (Or.inr hs2) hk
  · obtain ⟨m2, m3, hf, -⟩ := find_slope_interceptFirst s1 k s2 c hs1 hk hs2 hc
    refine ⟨_, _, m2, m3, by rw [hw]; exact hf, Or.inr ⟨s1 ++ k, s1, k, ?_⟩, _,
      newFromString_interceptFirst s s1 k s2 c hs1 hk hs2 hc hw⟩
    rw [hw, replace_interceptFirst s1 k s2 c hs1 hk hs2 hc]
    exact find_intercept s1 k hs1 hk

/-- Witness of C3 at the valid string "3 - 2x". -/
theorem newFromString_no_panic_witness :
    IsValid "3 - 2x".toList = true ∧
    ∃ m0 m1 m2 m3, slopeRx.FindStringSubmatch (removeSpaces "3 - 2x".toList) = [m0, m1, m2, m3] ∧
      (interceptRx.FindStringSubmatch (ReplaceAll (removeSpaces "3 - 2x".toList) m0 []) = [] ∨
        ∃ i0 i1 i2,
          interceptRx.FindStringSubmatch (ReplaceAll (removeSpaces "3 - 2x".toList) m0 []) =
            [i0, i1, i2]) ∧
      ∃ lf, NewFromString "3 - 2x".toList = .ok lf :=
  ⟨by decide, newFromString_no_panic "3 - 2x".toList (by decide)⟩

/-- C4: on a string that IsValid rejects NewFromString panics with the invalid-string
panic and returns no LinearFunction, whatever slopeRx would find in it. -/
theorem newFromString_invalid_panics (s : List Char) (h : IsValid s = false) :
    NewFromString s = .error .invalidString := by
  unfold NewFromString
  simp [h]

/-- Witness of C4 at ".5x", in which slopeRx alone finds the match "5x". -/
theorem newFromString_invalid_panics_witness :
    IsValid ".5x".toList = false ∧
    slopeRx.FindStringSubmatch (removeSpaces ".5x".toList) = [['5', 'x'], [], ['5'], []] ∧
    NewFromString ".5x".toList = .error .invalidString :=
  ⟨by decide, by decide, newFromString_invalid_panics ".5x".toList (by decide)⟩

/-- C5: IsValid s is true exactly when the whole of removeSpaces s is derived by the
reference grammar S ::= sign? T (sign N)? | sign? N sign T; the listed examples are
accepted ("2x+3", "2x-3", "2x+0", "2x", "-2x", "3+2x", "3-2x", "x") and rejected
("3", "0x", "2.x", ".2x", "0x+3", "x+3.", "x+.3") accordingly. -/
theorem isValid_iff_grammar :
    (∀ s : List Char, IsValid s = true ↔ Derives (removeSpaces s)) ∧
    (["2x+3", "2x-3", "2x+0", "2x", "-2x", "3+2x", "3-2x", "x"].all
      fun s => IsValid s.toList) = true ∧
    (["3", "0x", "2.x", ".2x", "0x+3", "x+3.", "x+.3"].all
      fun s => !IsValid s.toList) = true :=
  ⟨isValid_iff_derives, by decide, by decide⟩

/-- C6: whitespace insensitivity. When s and t are equal once every space is deleted,
removeSpaces agrees on them, IsValid agrees on them and NewFromString gives the same
result (the same slope and intercept when valid); removeSpaces deletes exactly the
spaces and is idempotent. -/
theorem whitespace_insensitive (s t : List Char)
    (h : s.filter (fun c => c != ' ') = t.filter (fun c => c != ' ')) :
    removeSpaces s = s.filter (fun c => c != ' ') ∧
    removeSpaces s = removeSpaces t ∧
    IsValid s = IsValid t ∧
    NewFromString s = NewFromString t ∧
    removeSpaces (removeSpaces s) = removeSpaces s := by
  have hst : removeSpaces s = removeSpaces t := by
    rw [removeSpaces_eq_filter, removeSpaces_eq_filter, h]
  refine ⟨removeSpaces_eq_filter s, hst, ?_, ?_, removeSpaces_idem s⟩
  · unfold IsValid
    rw [hst]
  · unfold NewFromString IsValid
    rw [hst]

/-- Witness of C6: "2x + 3", "2x+3", " 2x+3 " and "2 x+3" behave alike. -/
theorem whitespace_insensitive_witness :
    (IsValid "2x + 3".toList = IsValid "2x+3".toList ∧
      NewFromString "2x + 3".toList = NewFromString "2x+3".toList) ∧
    (IsValid " 2x+3 ".toList = IsValid "2x+3".toList ∧
      NewFromString " 2x+3 ".toList = NewFromString "2x+3".toList) ∧
    (IsValid "2 x+3".toList = IsValid "2x+3".toList ∧
      NewFromString "2 x+3".toList = NewFromString "2x+3".toList) ∧
    IsValid "2x+3".toList = true := by
  have h1 := whitespace_insensitive "2x + 3".toList "2x+3".toList (by decide)
  have h2 := whitespace_insensitive " 2x+3 ".toList "2x+3".toList (by decide)
  have h3 := whitespace_insensitive "2 x+3".toList "2x+3".toList (by decide)
  exact ⟨⟨h1.2.2.1, h1.2.2.2.1⟩, ⟨h2.2.2.1, h2.2.2.2.1⟩, ⟨h3.2.2.1, h3.2.2.2.1⟩, by decide⟩

/-- C7 (what the code does): the string "0.0x" is accepted by IsValid and NewFromString
gives it the slope 0, so Root and XFromY of the parsed function divide by zero. -/
theorem zero_slope_is_valid :
    IsValid "0.0x".toList = true ∧ NewFromString "0.0x".toList = .ok ⟨0, 0⟩ := by
  have d0 : Digits ['0'] := ⟨by decide, by decide⟩
  have hc : Coef ['0', '.', '0'] := Or.inr (Or.inr ⟨['0'], ['0'], d0, d0, rfl⟩)
  refine ⟨by decide, ?_⟩
  rw [newFromString_slopeFirst_bare "0.0x".toList [] ['0', '.', '0'] (Or.inl rfl) hc
    (by decide)]
  have h := parseFloat_decimal ['0'] ['0'] d0 d0
  rw [show natOfDigits ['0'] = 0 from by decide] at h
  have h2 : ParseFloat ['0', '.', '0'] = 0 := h.trans (by norm_num)
  simp [signed, coefMagnitude, h2]

/-- C10: the variable term is mandatory: a string whose stripped form has no x is
rejected by IsValid. -/
theorem isValid_false_of_no_x (s : List Char) (h : 'x' ∉ removeSpaces s) :
    IsValid s = false := by
  rw [Bool.eq_false_iff]
  intro hv
  apply h
  rcases valid_cases _ ((isValid_iff_derives s).mp hv) with
    ⟨s1, c, -, -, hw⟩ | ⟨s1, c, s2, k, -, -, -, -, hw⟩ | ⟨s1, k, s2, c, -, -, -, -, hw⟩ <;>
  · rw [hw]
    simp

/-- Witness of C10 at "3", "-3.5" and the empty string. -/
theorem isValid_false_of_no_x_witness :
    IsValid "3".toList = false ∧ IsValid "-3.5".toList = false ∧ IsValid [] = false :=
  ⟨isValid_false_of_no_x "3".toList (by decide),
   isValid_false_of_no_x "-3.5".toList (by decide),
   isValid_false_of_no_x [] (by decide)⟩

theorem last_mem_of_append_eq (q p a : List Char) (σ : Char) (h : q ++ [σ] = p ++ a)
    (ha : a ≠ []) : σ ∈ a := by
  have hr := congrArg List.reverse h
  simp only [List.reverse_append, List.reverse_cons, List.reverse_nil, List.nil_append,
    List.singleton_append] at hr
  cases hra : a.reverse with
  | nil => exact absurd (List.reverse_eq_nil_iff.mp hra) ha
  | cons x l =>
    rw [hra, List.cons_append, List.cons.injEq] at hr
    rw [hr.1, ← List.mem_reverse, hra]
    exact List.mem_cons_self _ _

theorem endsSign_append_numChar (p a : List Char) (h : EndsSign (p ++ a))
    (ha : ∀ ch ∈ a, numChar ch = true) : a = [] := by
  by_contra hne
  rcases h with h | ⟨q, h | h⟩
  · exact hne (List.append_eq_nil.mp h).2
  · have := numChar_ne (ha _ (last_mem_of_append_eq q p a '+' h.symm hne))
    exact this.1 rfl
  · have := numChar_ne (ha _ (last_mem_of_append_eq q p a '-' h.symm hne))
    exact this.2.1 rfl

/-- The text after the last sign is determined by the string. -/
theorem suffix_after_sign (p pre d coef : List Char) (hd : ∀ ch ∈ d, numChar ch = true)
    (hcoef : ∀ ch ∈ coef, numChar ch = true) (hp : EndsSign p) (hpre : EndsSign pre)
    (h : p ++ d = pre ++ coef) : d = coef := by
  rcases List.append_eq_append_iff.mp h with ⟨a, rfl, rfl⟩ | ⟨a, rfl, rfl⟩
  · have := endsSign_append_numChar p a hpre (fun ch hch => hd ch (List.mem_append_left _ hch))
    rw [this, List.nil_append]
  · have := endsSign_append_numChar pre a hp
      (fun ch hch => hcoef ch (List.mem_append_left _ hch))
    rw [this, List.nil_append]

theorem endsSign_optSign {s : List Char} (h : OptSign s) : EndsSign s := by
  rcases h with rfl | rfl | rfl
  · exact Or.inl rfl
  · exact Or.inr ⟨[], Or.inl rfl⟩
  · exact Or.inr ⟨[], Or.inr rfl⟩

theorem endsSign_append_sign (u : List Char) {s : List Char} (h : Sign s) :
    EndsSign (u ++ s) := by
  rcases h with rfl | rfl
  · exact Or.inr ⟨u, Or.inl rfl⟩
  · exact Or.inr ⟨u, Or.inr rfl⟩

/-- A derived string splits around its only x: what stands before the coefficient is empty
or ends with a sign. -/
theorem derives_split (w : List Char) (h : Derives w) :
    ∃ pre coef post, w = (pre ++ coef) ++ 'x' :: post ∧ Coef coef ∧ EndsSign pre ∧
      'x' ∉ pre ++ coef ∧ 'x' ∉ post := by
  rcases valid_cases w h with
    ⟨s1, c, hs1, hc, hw⟩ | ⟨s1, c, s2, k, hs1, hc, hs2, hk, hw⟩ |
    ⟨s1, k, s2, c, hs1, hk, hs2, hc, hw⟩
  · exact ⟨s1, c, [], by rw [hw]; simp, hc, endsSign_optSign hs1,
      not_mem_x_sign_coef s1 c hs1 hc, by simp⟩
  · exact ⟨s1, c, s2 ++ k, by rw [hw]; simp, hc, endsSign_optSign hs1,
      not_mem_x_sign_coef s1 c hs1 hc, not_mem_x_sign_n s2 k (Or.inr hs2) hk⟩
  · refine ⟨(s1 ++ k) ++ s2, c, [], by rw [hw]; simp, hc, endsSign_append_sign _ hs2, ?_,
      by simp⟩
    intro hm
    rw [List.append_assoc] at hm
    rcases List.mem_append.mp hm with hm | hm
    · exact not_mem_x_sign_n s1 k hs1 hk hm
    · exact not_mem_x_sign_coef s2 c (Or.inr hs2) hc hm

/-- C8: a zero or leading-zero integer coefficient is rejected. When the stripped string
is p ++ d ++ "x" ++ r with d a non-empty string of digits that starts with 0 and p empty or
ending with a sign, IsValid is false. -/
theorem isValid_false_of_leading_zero (s p d r : List Char)
    (hs : removeSpaces s = p ++ d ++ ['x'] ++ r) (hd : Digits d) (h0 : d.head? = some '0')
    (hp : p = [] ∨ ∃ q, p = q ++ ['+'] ∨ p = q ++ ['-']) : IsValid s = false := by
  rw [Bool.eq_false_iff]
  intro hv
  obtain ⟨pre, coef, post, hw, hcoef, hpre, hx1, hx2⟩ :=
    derives_split _ ((isValid_iff_derives s).mp hv)
  rw [hs] at hw
  have hcount := congrArg (List.count 'x') hw
  simp only [List.count_append, List.count_cons_self, List.count_nil,
    List.count_eq_zero.mpr hx2, List.count_eq_zero.mpr (fun h => hx1 (List.mem_append_left _ h)),
    List.count_eq_zero.mpr (fun h => hx1 (List.mem_append_right _ h))] at hcount
  have hxd : 'x' ∉ d := fun hm => (numChar_ne (digits_numChar hd _ hm)).2.2.1 rfl
  have hxp : 'x' ∉ p := by
    rw [← List.count_eq_zero]
    omega
  have hw2 : (p ++ d) ++ 'x' :: r = (pre ++ coef) ++ 'x' :: post := by
    rw [← hw]
    simp
  have h1 := (split_unique 'x' (p ++ d) (pre ++ coef) r post
    (fun hm => (List.mem_append.mp hm).elim hxp hxd) hx1 hw2).1
  have h2 := suffix_after_sign p pre d coef (digits_numChar hd) (coef_numChar hcoef) hp hpre h1
  rw [← h2] at hcoef
  rcases hcoef with rfl | ⟨c, t, hc, -, rfl⟩ | ⟨a, b, -, -, rfl⟩
  · exact hd.1 rfl
  · simp only [List.head?_cons, Option.some.injEq] at h0
    rw [h0] at hc
    exact absurd hc (by decide)
  · have := hd.2 '.' (by simp)
    exact absurd this (by decide)

/-- Witness of C8 at "0x", "3+0x" and "01x". -/
theorem isValid_false_of_leading_zero_witness :
    IsValid "0x".toList = false ∧ IsValid "3+0x".toList = false ∧
    IsValid "01x".toList = false :=
  ⟨isValid_false_of_leading_zero "0x".toList [] ['0'] [] (by decide) ⟨by decide, by decide⟩ rfl
      (Or.inl rfl),
   isValid_false_of_leading_zero "3+0x".toList ['3', '+'] ['0'] [] (by decide)
      ⟨by decide, by decide⟩ rfl (Or.inr ⟨['3'], Or.inl rfl⟩),
   isValid_false_of_leading_zero "01x".toList [] ['0', '1'] [] (by decide)
      ⟨by decide, by decide⟩ rfl (Or.inl rfl)⟩

theorem dotOK_append {u v : List Char} (hu : DotOK u) (hv : DotOK v) : DotOK (u ++ v) := by
  intro a b h
  rcases List.append_eq_append_iff.mp h with ⟨a1, rfl, hv2⟩ | ⟨c1, rfl, hc⟩
  · obtain ⟨⟨a2, d, rfl, hd⟩, hb⟩ := hv a1 b hv2
    exact ⟨⟨u ++ a2, d, by simp, hd⟩, hb⟩
  · cases c1 with
    | nil =>
      obtain ⟨⟨a2, d, ha2, -⟩, -⟩ := hv [] b (by simpa using hc.symm)
      simp at ha2
    | cons x c2 =>
      simp only [List.cons_append, List.cons.injEq] at hc
      obtain ⟨rfl, rfl⟩ := hc
      obtain ⟨ha, ⟨d, b1, rfl, hd⟩⟩ := hu a c2 rfl
      exact ⟨ha, ⟨d, b1 ++ v, rfl, hd⟩⟩

theorem dotOK_of_not_mem {t : List Char} (h : '.' ∉ t) : DotOK t := by
  intro a b ht
  exact absurd (ht ▸ by simp) h

theorem dotOK_digits {w : List Char} (h : ∀ c ∈ w, digit c = true) : DotOK w :=
  dotOK_of_not_mem fun hm => absurd (h _ hm) (by decide)

theorem dotOK_decimal {w : List Char} (h : Decimal w) : DotOK w := by
  obtain ⟨a, b, ha, hb, rfl⟩ := h
  intro a2 b2 heq
  have key : ∀ (u v : List Char), (∀ c ∈ u, digit c = true) →
      u ++ '.' :: b = v ++ '.' :: b2 → (∀ c ∈ b, digit c = true) → u = v ∧ b = b2 := by
    intro u
    induction u with
    | nil =>
      intro v hu h hb
      cases v with
      | nil => simpa using h
      | cons x v =>
        simp only [List.nil_append, List.cons_append, List.cons.injEq] at h
        have : '.' ∈ b := by rw [h.2]; simp
        exact absurd (hb _ this) (by decide)
    | cons y u ih =>
      intro v hu h hb
      cases v with
      | nil =>
        simp only [List.nil_append, List.cons_append, List.cons.injEq] at h
        exact absurd (hu y (List.mem_cons_self _ _)) (by rw [h.1]; decide)
      | cons x v =>
        simp only [List.cons_append, List.cons.injEq] at h
        obtain ⟨h1, h2⟩ := ih v (fun c hc => hu c (List.mem_cons_of_mem _ hc)) h.2 hb
        exact ⟨by rw [h.1, h1], h2⟩
  obtain ⟨rfl, rfl⟩ := key a a2 ha.2 heq hb.2
  constructor
  · refine ⟨a.dropLast, a.getLast ha.1, (List.dropLast_append_getLast ha.1).symm, ?_⟩
    exact ha.2 _ (List.getLast_mem ha.1)
  · cases b with
    | nil => exact absurd rfl hb.1
    | cons d b1 => exact ⟨d, b1, rfl, hb.2 d (List.mem_cons_self _ _)⟩

theorem dotOK_n {w : List Char} (h : N w) : DotOK w := by
  rcases h with h | h
  · exact dotOK_digits h.2
  · exact dotOK_decimal h

theorem dotOK_coef {w : List Char} (h : Coef w) : DotOK w := by
  rcases h with rfl | h | h
  · exact dotOK_of_not_mem (by simp)
  · exact dotOK_digits (posInt_digits h).2
  · exact dotOK_decimal h

theorem dotOK_optSign {w : List Char} (h : OptSign w) : DotOK w := by
  rcases h with rfl | rfl | rfl <;> exact dotOK_of_not_mem (by decide)

theorem dotOK_x : DotOK ['x'] := dotOK_of_not_mem (by decide)

theorem dotOK_derives {w : List Char} (h : Derives w) : DotOK w := by
  rcases valid_cases w h with
    ⟨s1, c, hs1, hc, rfl⟩ | ⟨s1, c, s2, k, hs1, hc, hs2, hk, rfl⟩ |
    ⟨s1, k, s2, c, hs1, hk, hs2, hc, rfl⟩
  · exact dotOK_append (dotOK_optSign hs1) (dotOK_append (dotOK_coef hc) dotOK_x)
  · have : s1 ++ (c ++ 'x' :: (s2 ++ k)) = s1 ++ (c ++ (['x'] ++ (s2 ++ k))) := by simp
    rw [this]
    exact dotOK_append (dotOK_optSign hs1) (dotOK_append (dotOK_coef hc)
      (dotOK_append dotOK_x (dotOK_append (dotOK_optSign (Or.inr hs2)) (dotOK_n hk))))
  · exact dotOK_append (dotOK_append (dotOK_optSign hs1) (dotOK_n hk))
      (dotOK_append (dotOK_optSign (Or.inr hs2)) (dotOK_append (dotOK_coef hc) dotOK_x))

/-- C9: in a valid string every decimal point of the stripped form is immediately
preceded by a digit and immediately followed by a digit, in the coefficient and in the
constant alike; so "2.x", ".2x", "x+3." and "x+.3" are rejected. -/
theorem decimal_point_between_digits (s : List Char) (h : IsValid s = true) :
    (∀ a b, removeSpaces s = a ++ '.' :: b →
      (∃ a1 d, a = a1 ++ [d] ∧ digit d = true) ∧ (∃ d b1, b = d :: b1 ∧ digit d = true)) ∧
    (["2.x", ".2x", "x+3.", "x+.3"].all fun t => !IsValid t.toList) = true :=
  ⟨dotOK_derives ((isValid_iff_derives s).mp h), by decide⟩

/-- Witness of C9 at "-1.5 - 2.3x": both of its decimal points stand between digits. -/
theorem decimal_point_between_digits_witness :
    IsValid "-1.5 - 2.3x".toList = true ∧
    ((∃ a1 d, "-1".toList = a1 ++ [d] ∧ digit d = true) ∧
      (∃ d b1, "5-2.3x".toList = d :: b1 ∧ digit d = true)) ∧
    ((∃ a1 d, "-1.5-2".toList = a1 ++ [d] ∧ digit d = true) ∧
      (∃ d b1, "3x".toList = d :: b1 ∧ digit d = true)) :=
  ⟨by decide,
   (decimal_point_between_digits "-1.5 - 2.3x".toList (by decide)).1 "-1".toList
     "5-2.3x".toList (by decide),
   (decimal_point_between_digits "-1.5 - 2.3x".toList (by decide)).1 "-1.5-2".toList
     "3x".toList (by decide)⟩

/-! ## Evaluation, inversion, root and trend -/

theorem parse_2x_plus_4 : NewFromString "2x+4".toList = .ok ⟨2, 4⟩ := by
  have d4 : Digits ['4'] := ⟨by decide, by decide⟩
  have p2 : PosInt ['2'] := ⟨'2', [], by decide, by decide, rfl⟩
  rw [newFromString_slopeFirst_const "2x+4".toList [] ['2'] ['+'] ['4'] (Or.inl rfl)
    (Or.inr (Or.inl p2)) (Or.inl rfl) (Or.inl d4) (by decide)]
  rw [parseFloat_digits _ d4, show natOfDigits ['4'] = 4 from by decide]
  simp only [coefMagnitude, signed]
  rw [parseFloat_digits _ (posInt_digits p2), show natOfDigits ['2'] = 2 from by decide]
  norm_num
  decide

theorem parse_15_minus_2x : NewFromString "15-2x".toList = .ok ⟨-2, 15⟩ := by
  have d15 : Digits ['1', '5'] := ⟨by decide, by decide⟩
  have p2 : PosInt ['2'] := ⟨'2', [], by decide, by decide, rfl⟩
  rw [newFromString_interceptFirst "15-2x".toList [] ['1', '5'] ['-'] ['2'] (Or.inl rfl)
    (Or.inl d15) (Or.inr rfl) (Or.inr (Or.inl p2)) (by decide)]
  rw [parseFloat_digits _ d15, show natOfDigits ['1', '5'] = 15 from by decide]
  simp only [coefMagnitude, signed]
  rw [parseFloat_digits _ (posInt_digits p2), show natOfDigits ['2'] = 2 from by decide]
  norm_num

theorem parse_zero_decimal : NewFromString "0.0x".toList = .ok ⟨0, 0⟩ := by
  have d0 : Digits ['0'] := ⟨by decide, by decide⟩
  have hc : Coef ['0', '.', '0'] := Or.inr (Or.inr ⟨['0'], ['0'], d0, d0, rfl⟩)
  rw [newFromString_slopeFirst_bare "0.0x".toList [] ['0', '.', '0'] (Or.inl rfl) hc
    (by decide)]
  have h := parseFloat_decimal ['0'] ['0'] d0 d0
  rw [show natOfDigits ['0'] = 0 from by decide] at h
  have h2 : ParseFloat ['0', '.', '0'] = 0 := h.trans (by norm_num)
  simp [signed, coefMagnitude, h2]

/-- C11: Exec and XFromY are inverse operations. For a LinearFunction with a non-zero
slope and all numbers x and y, in exact arithmetic XFromY (Exec x) = x and
Exec (XFromY y) = y. -/
theorem exec_xFromY_inverse (lf : LinearFunction) (h : lf.slope ≠ 0) (x y : ℚ) :
    lf.XFromY (lf.Exec x) = x ∧ lf.Exec (lf.XFromY y) = y := by
  unfold LinearFunction.XFromY LinearFunction.Exec LinearFunction.Slope
    LinearFunction.Intercept
  constructor
  · field_simp
  · field_simp

/-- Witness of C11 at the function 2x+4 with x = 8 and y = 8. -/
theorem exec_xFromY_inverse_witness :
    (⟨2, 4⟩ : LinearFunction).XFromY ((⟨2, 4⟩ : LinearFunction).Exec 8) = 8 ∧
    (⟨2, 4⟩ : LinearFunction).Exec ((⟨2, 4⟩ : LinearFunction).XFromY 8) = 8 :=
  exec_xFromY_inverse ⟨2, 4⟩ (by norm_num) 8 8

/-- C12: Root returns a zero of the function. For a LinearFunction with a non-zero slope,
in exact arithmetic Exec (Root) = 0 and Root is the only x with Exec x = 0. -/
theorem root_is_unique_zero (lf : LinearFunction) (h : lf.slope ≠ 0) :
    lf.Exec lf.Root = 0 ∧ ∀ x, lf.Exec x = 0 → x = lf.Root := by
  unfold LinearFunction.Root LinearFunction.XFromY LinearFunction.Exec LinearFunction.Slope
    LinearFunction.Intercept
  constructor
  · field_simp
    ring
  · intro x hx
    field_simp
    linarith

/-- Witness of C12: the root of "2x+4" is -2 and the root of "15-2x" is 7.5, and each is
the only zero of its function. -/
theorem root_is_unique_zero_witness :
    NewFromString "2x+4".toList = .ok ⟨2, 4⟩ ∧ (⟨2, 4⟩ : LinearFunction).Root = -2 ∧
    NewFromString "15-2x".toList = .ok ⟨-2, 15⟩ ∧ (⟨-2, 15⟩ : LinearFunction).Root = 15 / 2 ∧
    ((⟨2, 4⟩ : LinearFunction).Exec (⟨2, 4⟩ : LinearFunction).Root = 0 ∧
      ∀ x, (⟨2, 4⟩ : LinearFunction).Exec x = 0 → x = (⟨2, 4⟩ : LinearFunction).Root) := by
  refine ⟨parse_2x_plus_4, ?_, parse_15_minus_2x, ?_,
    root_is_unique_zero ⟨2, 4⟩ (by norm_num)⟩
  · norm_num [LinearFunction.Root, LinearFunction.XFromY, LinearFunction.Slope,
      LinearFunction.Intercept]
  · norm_num [LinearFunction.Root, LinearFunction.XFromY, LinearFunction.Slope,
      LinearFunction.Intercept]

theorem exec_lt_iff (lf : LinearFunction) :
    lf.slope > 0 ↔ ∀ a b : ℚ, a < b → lf.Exec a < lf.Exec b := by
  unfold LinearFunction.Exec LinearFunction.Slope LinearFunction.Intercept
  constructor
  · intro h a b hab
    have := mul_lt_mul_of_pos_left hab h
    linarith
  · intro h
    have := h 0 1 (by norm_num)
    linarith

theorem exec_gt_iff (lf : LinearFunction) :
    lf.slope < 0 ↔ ∀ a b : ℚ, a < b → lf.Exec a > lf.Exec b := by
  unfold LinearFunction.Exec LinearFunction.Slope LinearFunction.Intercept
  constructor
  · intro h a b hab
    have := mul_lt_mul_of_neg_left hab h
    linarith
  · intro h
    have := h 0 1 (by norm_num)
    linarith

/-- C13: Increasing returns whether the function is increasing. Increasing is true exactly
when the slope is positive, which in exact arithmetic holds exactly when
Exec a < Exec b for all a < b. -/
theorem increasing_iff (lf : LinearFunction) :
    (lf.Increasing = true ↔ lf.slope > 0) ∧
    (lf.slope > 0 ↔ ∀ a b : ℚ, a < b → lf.Exec a < lf.Exec b) := by
  refine ⟨?_, exec_lt_iff lf⟩
  simp [LinearFunction.Increasing, LinearFunction.Slope]

/-- C14 (what the code does): the valid string "0.0x" parses to a function for which
Decreasing is true although the function is constant, hence not decreasing. -/
theorem decreasing_true_on_constant :
    IsValid "0.0x".toList = true ∧
    NewFromString "0.0x".toList = .ok ⟨0, 0⟩ ∧
    (⟨0, 0⟩ : LinearFunction).Decreasing = true ∧
    ¬ ∀ a b : ℚ, a < b → (⟨0, 0⟩ : LinearFunction).Exec a > (⟨0, 0⟩ : LinearFunction).Exec b := by
  refine ⟨by decide, parse_zero_decimal, ?_, ?_⟩
  · simp [LinearFunction.Decreasing, LinearFunction.Increasing, LinearFunction.Slope]
  · intro h
    have := h 0 1 (by norm_num)
    simp [LinearFunction.Exec, LinearFunction.Slope, LinearFunction.Intercept] at this

/-- C15: Decreasing is the logical negation of Increasing, so exactly one of the two is
true; Decreasing holds exactly when the slope is at most 0, and a function whose slope is
exactly 0 has Increasing false and Decreasing true. -/
theorem decreasing_eq_not_increasing (lf : LinearFunction) :
    lf.Decreasing = !lf.Increasing ∧
    (lf.Increasing = true ∧ lf.Decreasing = false ∨
      lf.Increasing = false ∧ lf.Decreasing = true) ∧
    (lf.Decreasing = true ↔ lf.slope ≤ 0) ∧
    ∀ i : ℚ, (⟨0, i⟩ : LinearFunction).Increasing = false ∧
      (⟨0, i⟩ : LinearFunction).Decreasing = true := by
  refine ⟨rfl, ?_, ?_, ?_⟩
  · unfold LinearFunction.Decreasing
    cases lf.Increasing <;> simp
  · simp [LinearFunction.Decreasing, LinearFunction.Increasing, LinearFunction.Slope]
  · intro i
    simp [LinearFunction.Decreasing, LinearFunction.Increasing, LinearFunction.Slope]

/-- C16: Exec x = Slope * x + Intercept for every LinearFunction and every x, and in
particular Exec 0 = Intercept; "2x+4" at 8 gives 20 and "15-2x" at 5 gives 5. -/
theorem exec_eq (lf : LinearFunction) (x : ℚ) :
    lf.Exec x = lf.Slope * x + lf.Intercept ∧
    lf.Exec 0 = lf.Intercept ∧
    (NewFromString "2x+4".toList = .ok ⟨2, 4⟩ ∧ (⟨2, 4⟩ : LinearFunction).Exec 8 = 20) ∧
    (NewFromString "15-2x".toList = .ok ⟨-2, 15⟩ ∧ (⟨-2, 15⟩ : LinearFunction).Exec 5 = 5) := by
  refine ⟨rfl, ?_, ⟨parse_2x_plus_4, ?_⟩, ⟨parse_15_minus_2x, ?_⟩⟩
  · simp [LinearFunction.Exec]
  · norm_num [LinearFunction.Exec, LinearFunction.Slope, LinearFunction.Intercept]
  · norm_num [LinearFunction.Exec, LinearFunction.Slope, LinearFunction.Intercept]

/-- In exact arithmetic Root is XFromY 0, which is (0 - intercept) / slope, for every
LinearFunction (a zero slope gives the quotient 0 there, not a NaN or an infinity). -/
theorem root_eq_xFromY_zero (lf : LinearFunction) :
    lf.Root = lf.XFromY 0 ∧ lf.XFromY 0 = (0 - lf.intercept) / lf.slope :=
  ⟨rfl, rfl⟩

/-! ## The slope term and its removal -/

/-- A substring that ends in a character found nowhere else occurs exactly once. -/
theorem occurrence_unique (x : Char) (a w b : List Char) (ha : x ∉ a) (hw : x ∉ w)
    (hb : x ∉ b) :
    List.count x (a ++ (w ++ [x]) ++ b) = 1 ∧
    ∀ a2 b2, a ++ (w ++ [x]) ++ b = a2 ++ (w ++ [x]) ++ b2 → a2 = a ∧ b2 = b := by
  have hc : List.count x (a ++ (w ++ [x]) ++ b) = 1 := by
    simp [List.count_append, List.count_eq_zero.mpr ha, List.count_eq_zero.mpr hw,
      List.count_eq_zero.mpr hb]
  refine ⟨hc, ?_⟩
  intro a2 b2 h
  have hc2 := hc
  rw [h] at hc2
  simp only [List.count_append, List.count_cons_self, List.count_nil,
    List.count_eq_zero.mpr hw] at hc2
  have ha2 : x ∉ a2 := by
    rw [← List.count_eq_zero]
    omega
  have h3 : (a ++ w) ++ x :: b = (a2 ++ w) ++ x :: b2 := by
    simpa using h
  obtain ⟨h4, h5⟩ := split_unique x (a ++ w) (a2 ++ w) b b2
    (fun hm => (List.mem_append.mp hm).elim ha hw)
    (fun hm => (List.mem_append.mp hm).elim ha2 hw) h3
  exact ⟨(List.append_cancel_right h4).symm, h5.symm⟩

/-- C18: on a valid string the text matched by slopeRx (slopeMatches[0]) is the whole
variable term with its adjacent sign; it occurs exactly once in the stripped string, which
has exactly one x; and strings.ReplaceAll removes just that occurrence, leaving the
constant term with its leading sign, or the empty string when there is none. -/
theorem slope_term_removed_once (s : List Char) (h : IsValid s = true) :
    ∃ a sg c b, OptSign sg ∧ Coef c ∧
      removeSpaces s = a ++ (sg ++ (c ++ ['x'])) ++ b ∧
      ((a = [] ∧ (b = [] ∨ ∃ s2 k, Sign s2 ∧ N k ∧ b = s2 ++ k)) ∨
        (b = [] ∧ Sign sg ∧ ∃ s1 k, OptSign s1 ∧ N k ∧ a = s1 ++ k)) ∧
      index (slopeRx.FindStringSubmatch (removeSpaces s)) 0 = .ok (sg ++ (c ++ ['x'])) ∧
      List.count 'x' (removeSpaces s) = 1 ∧
      (∀ a2 b2, removeSpaces s = a2 ++ (sg ++ (c ++ ['x'])) ++ b2 → a2 = a ∧ b2 = b) ∧
      ReplaceAll (removeSpaces s) (sg ++ (c ++ ['x'])) [] = a ++ b := by
  rcases valid_cases _ ((isValid_iff_derives s).mp h) with
    ⟨s1, c, hs1, hc, hw⟩ | ⟨s1, c, s2, k, hs1, hc, hs2, hk, hw⟩ |
    ⟨s1, k, s2, c, hs1, hk, hs2, hc, hw⟩
  · obtain ⟨m2, m3, hf, -⟩ := find_slope_slopeFirst s1 c [] hs1 hc
    have hocc := occurrence_unique 'x' [] (s1 ++ c) [] (by simp)
      (not_mem_x_sign_coef s1 c hs1 hc) (by simp)
    have e : removeSpaces s = [] ++ ((s1 ++ c) ++ ['x']) ++ [] := by rw [hw]; simp
    refine ⟨[], s1, c, [], hs1, hc, by rw [hw]; simp, Or.inl ⟨rfl, Or.inl rfl⟩, ?_, ?_, ?_, ?_⟩
    · rw [hw, hf]
      rfl
    · rw [e]
      exact hocc.1
    · intro a2 b2 h2
      rw [e] at h2
      exact hocc.2 a2 b2 (by simpa using h2)
    · rw [hw, replace_slopeFirst_bare s1 c hs1 hc]
      rfl
  · obtain ⟨m2, m3, hf, -⟩ := find_slope_slopeFirst s1 c (s2 ++ k) hs1 hc
    have hocc := occurrence_unique 'x' [] (s1 ++ c) (s2 ++ k) (by simp)
      (not_mem_x_sign_coef s1 c hs1 hc) (not_mem_x_sign_n s2 k (Or.inr hs2) hk)
    have e : removeSpaces s = [] ++ ((s1 ++ c) ++ ['x']) ++ (s2 ++ k) := by rw [hw]; simp
    refine ⟨[], s1, c, s2 ++ k, hs1, hc, by rw [hw]; simp,
      Or.inl ⟨rfl, Or.inr ⟨s2, k, hs2, hk, rfl⟩⟩, ?_, ?_, ?_, ?_⟩
    · rw [hw, hf]
      rfl
    · rw [e]
      exact hocc.1
    · intro a2 b2 h2
      rw [e] at h2
      exact hocc.2 a2 b2 (by simpa using h2)
    · rw [hw, replace_slopeFirst_const s1 c s2 k hs1 hc hs2 hk]
      rfl
  · obtain ⟨m2, m3, hf, -⟩ := find_slope_interceptFirst s1 k s2 c hs1 hk hs2 hc
    have hocc := occurrence_unique 'x' (s1 ++ k) (s2 ++ c) [] (not_mem_x_sign_n s1 k hs1 hk)
      (not_mem_x_sign_coef s2 c (Or.inr hs2) hc) (by simp)
    have e : removeSpaces s = (s1 ++ k) ++ ((s2 ++ c) ++ ['x']) ++ [] := by rw [hw]; simp
    refine ⟨s1 ++ k, s2, c, [], Or.inr hs2, hc, by rw [hw]; simp,
      Or.inr ⟨rfl, hs2, s1, k, hs1, hk, rfl⟩, ?_, ?_, ?_, ?_⟩
    · rw [hw, hf]
      rfl
    · rw [e]
      exact hocc.1
    · intro a2 b2 h2
      rw [e] at h2
      exact hocc.2 a2 b2 (by simpa using h2)
    · rw [hw, replace_interceptFirst s1 k s2 c hs1 hk hs2 hc]
      simp

/-! ## Exclusive shapes and the alphabet -/

theorem optSign_length {s : List Char} (h : OptSign s) : s.length ≤ 1 := by
  rcases h with rfl | rfl | rfl <;> simp

theorem sign_singleton {s : List Char} (h : Sign s) : ∃ σ, s = [σ] := by
  rcases h with rfl | rfl
  · exact ⟨_, rfl⟩
  · exact ⟨_, rfl⟩

theorem n_ne_nil {k : List Char} (h : N k) : k ≠ [] := by
  rcases h with h | ⟨a, b, -, -, rfl⟩
  · exact h.1
  · simp

theorem slopeFirstShape_form {w : List Char} (h : SlopeFirstShape w) :
    ∃ s1 c r, OptSign s1 ∧ Coef c ∧ 'x' ∉ r ∧ w = s1 ++ (c ++ 'x' :: r) := by
  obtain ⟨s1, t, hs1, ⟨c, hc, rfl⟩, h⟩ := h
  rcases h with rfl | ⟨s2, k, hs2, hk, rfl⟩
  · exact ⟨s1, c, [], hs1, hc, by simp, rfl⟩
  · exact ⟨s1, c, s2 ++ k, hs1, hc, not_mem_x_sign_n s2 k (Or.inr hs2) hk, by simp⟩

theorem interceptFirstShape_form {w : List Char} (h : InterceptFirstShape w) :
    ∃ s1 k s2 c, OptSign s1 ∧ N k ∧ Sign s2 ∧ Coef c ∧
      w = (s1 ++ k) ++ (s2 ++ (c ++ ['x'])) := by
  obtain ⟨s1, k, s2, t, hs1, hk, hs2, ⟨c, hc, rfl⟩, rfl⟩ := h
  exact ⟨s1, k, s2, c, hs1, hk, hs2, hc, by simp⟩

theorem slopeFirst_unique (s1 c r s1' c' r' : List Char) (hs1 : OptSign s1) (hc : Coef c)
    (hs1' : OptSign s1') (hc' : Coef c')
    (h : s1 ++ (c ++ 'x' :: r) = s1' ++ (c' ++ 'x' :: r')) :
    s1 = s1' ∧ c = c' ∧ r = r' := by
  have h2 : (s1 ++ c) ++ 'x' :: r = (s1' ++ c') ++ 'x' :: r' := by simpa using h
  obtain ⟨h3, h4⟩ := split_unique 'x' _ _ _ _ (not_mem_x_sign_coef s1 c hs1 hc)
    (not_mem_x_sign_coef s1' c' hs1' hc') h2
  have h5 := suffix_after_sign s1 s1' c c' (coef_numChar hc) (coef_numChar hc')
    (endsSign_optSign hs1) (endsSign_optSign hs1') h3
  rw [h5] at h3
  exact ⟨List.append_cancel_right h3, h5, h4⟩

theorem not_mem_x_interceptFirst (s1 k s2 c : List Char) (hs1 : OptSign s1) (hk : N k)
    (hs2 : Sign s2) (hc : Coef c) : 'x' ∉ ((s1 ++ k) ++ s2) ++ c := by
  intro hm
  rw [List.append_assoc] at hm
  rcases List.mem_append.mp hm with hm | hm
  · exact not_mem_x_sign_n s1 k hs1 hk hm
  · exact not_mem_x_sign_coef s2 c (Or.inr hs2) hc hm

theorem interceptFirst_unique (s1 k s2 c s1' k' s2' c' : List Char) (hs1 : OptSign s1)
    (hk : N k) (hs2 : Sign s2) (hc : Coef c) (hs1' : OptSign s1') (hk' : N k')
    (hs2' : Sign s2') (hc' : Coef c')
    (h : (s1 ++ k) ++ (s2 ++ (c ++ ['x'])) = (s1' ++ k') ++ (s2' ++ (c' ++ ['x']))) :
    s1 = s1' ∧ k = k' ∧ s2 = s2' ∧ c = c' := by
  have h2 : (((s1 ++ k) ++ s2) ++ c) ++ 'x' :: [] = (((s1' ++ k') ++ s2') ++ c') ++ 'x' :: [] := by
    simpa using h
  have h3 := (split_unique 'x' _ _ _ _ (not_mem_x_interceptFirst s1 k s2 c hs1 hk hs2 hc)
    (not_mem_x_interceptFirst s1' k' s2' c' hs1' hk' hs2' hc') h2).1
  have h5 := suffix_after_sign _ _ c c' (coef_numChar hc) (coef_numChar hc')
    (endsSign_append_sign (s1 ++ k) hs2) (endsSign_append_sign (s1' ++ k') hs2') h3
  rw [h5] at h3
  have h6 := List.append_cancel_right h3
  obtain ⟨σ, rfl⟩ := sign_singleton hs2
  obtain ⟨τ, rfl⟩ := sign_singleton hs2'
  obtain ⟨h7, h8⟩ := List.append_inj' h6 rfl
  have h9 := suffix_after_sign s1 s1' k k' (n_numChar hk) (n_numChar hk')
    (endsSign_optSign hs1) (endsSign_optSign hs1') h7
  rw [h9] at h7
  exact ⟨List.append_cancel_right h7, h9, h8, h5⟩

theorem shapes_disjoint (w : List Char) : ¬ (SlopeFirstShape w ∧ InterceptFirstShape w) := by
  rintro ⟨h1, h2⟩
  obtain ⟨s1, c, r, hs1, hc, hr, hw⟩ := slopeFirstShape_form h1
  obtain ⟨s1', k, s2, c', hs1', hk, hs2, hc', hw'⟩ := interceptFirstShape_form h2
  rw [hw] at hw'
  have h3 : (s1 ++ c) ++ 'x' :: r = (((s1' ++ k) ++ s2) ++ c') ++ 'x' :: [] := by
    simpa using hw'
  have h4 := (split_unique 'x' _ _ _ _ (not_mem_x_sign_coef s1 c hs1 hc)
    (not_mem_x_interceptFirst s1' k s2 c' hs1' hk hs2 hc') h3).1
  have h5 := suffix_after_sign _ _ c c' (coef_numChar hc) (coef_numChar hc')
    (endsSign_optSign hs1) (endsSign_append_sign (s1' ++ k) hs2) h4
  rw [h5] at h4
  have h6 := congrArg List.length (List.append_cancel_right h4)
  have := optSign_length hs1
  have hk1 : 0 < k.length := List.length_pos.mpr (n_ne_nil hk)
  obtain ⟨σ, rfl⟩ := sign_singleton hs2
  simp only [List.length_append, List.length_singleton] at h6
  omega

/-- C19: the two shapes are mutually exclusive. No string is both of the slope-first and
of the intercept-first shape, so a derived string is of exactly one shape (it matches
exactly one alternative of linearFnStrRx), and its decomposition into sign, coefficient
and constant is unique within its shape. -/
theorem shapes_exclusive (w : List Char) :
    ¬ (SlopeFirstShape w ∧ InterceptFirstShape w) ∧
    ¬ (slopeFirst.lang w ∧ interceptFirst.lang w) ∧
    (Derives w → (SlopeFirstShape w ∧ ¬ InterceptFirstShape w) ∨
      (¬ SlopeFirstShape w ∧ InterceptFirstShape w)) ∧
    (∀ s1 c r s1' c' r', OptSign s1 → Coef c → OptSign s1' → Coef c' →
      w = s1 ++ (c ++ 'x' :: r) → w = s1' ++ (c' ++ 'x' :: r') →
      s1 = s1' ∧ c = c' ∧ r = r') ∧
    (∀ s1 k s2 c s1' k' s2' c', OptSign s1 → N k → Sign s2 → Coef c → OptSign s1' → N k' →
      Sign s2' → Coef c' →
      w = (s1 ++ k) ++ (s2 ++ (c ++ ['x'])) → w = (s1' ++ k') ++ (s2' ++ (c' ++ ['x'])) →
      s1 = s1' ∧ k = k' ∧ s2 = s2' ∧ c = c') ∧
    SlopeFirstShape "2x+3".toList ∧ InterceptFirstShape "3+2x".toList := by
  have d2 : PosInt ['2'] := ⟨'2', [], by decide, by decide, rfl⟩
  have d3 : Digits ['3'] := ⟨by decide, by decide⟩
  refine ⟨shapes_disjoint w, ?_, ?_, ?_, ?_, ?_, ?_⟩
  · rw [lang_slopeFirst, lang_interceptFirst]
    exact shapes_disjoint w
  · rintro (h | h)
    · exact Or.inl ⟨h, fun h2 => shapes_disjoint w ⟨h, h2⟩⟩
    · exact Or.inr ⟨fun h2 => shapes_disjoint w ⟨h2, h⟩, h⟩
  · intro s1 c r s1' c' r' hs1 hc hs1' hc' h1 h2
    exact slopeFirst_unique s1 c r s1' c' r' hs1 hc hs1' hc' (h1.symm.trans h2)
  · intro s1 k s2 c s1' k' s2' c' hs1 hk hs2 hc hs1' hk' hs2' hc' h1 h2
    exact interceptFirst_unique s1 k s2 c s1' k' s2' c' hs1 hk hs2 hc hs1' hk' hs2' hc'
      (h1.symm.trans h2)
  · exact ⟨[], ['2', 'x'], Or.inl rfl, ⟨['2'], Or.inr (Or.inl d2), rfl⟩,
      Or.inr ⟨['+'], ['3'], Or.inl rfl, Or.inl d3, rfl⟩⟩
  · exact ⟨[], ['3'], ['+'], ['2', 'x'], Or.inl rfl, Or.inl d3, Or.inl rfl,
      ⟨['2'], Or.inr (Or.inl d2), rfl⟩, rfl⟩

theorem derives_chars {w : List Char} (h : Derives w) :
    ∀ ch ∈ w, ch = '+' ∨ ch = '-' ∨ ch = '.' ∨ digit ch = true ∨ ch = 'x' := by
  have hnum : ∀ ch, numChar ch = true →
      ch = '+' ∨ ch = '-' ∨ ch = '.' ∨ digit ch = true ∨ ch = 'x' := by
    intro ch hch
    simp only [numChar, Bool.or_eq_true, beq_iff_eq] at hch
    rcases hch with hch | hch
    · exact Or.inr (Or.inr (Or.inr (Or.inl hch)))
    · exact Or.inr (Or.inr (Or.inl hch))
  have hsg : ∀ ch, (ch = '+' ∨ ch = '-') →
      ch = '+' ∨ ch = '-' ∨ ch = '.' ∨ digit ch = true ∨ ch = 'x' := by
    rintro ch (h | h)
    · exact Or.inl h
    · exact Or.inr (Or.inl h)
  have hx : ∀ ch, ch = 'x' →
      ch = '+' ∨ ch = '-' ∨ ch = '.' ∨ digit ch = true ∨ ch = 'x' :=
    fun ch h => Or.inr (Or.inr (Or.inr (Or.inr h)))
  intro ch hmem
  rcases valid_cases w h with
    ⟨s1, c, hs1, hc, rfl⟩ | ⟨s1, c, s2, k, hs1, hc, hs2, hk, rfl⟩ |
    ⟨s1, k, s2, c, hs1, hk, hs2, hc, rfl⟩
  · simp only [List.mem_append, List.mem_singleton] at hmem
    rcases hmem with hm | hm | hm
    · exact hsg ch (optSign_chars hs1 ch hm)
    · exact hnum ch (coef_numChar hc ch hm)
    · exact hx ch hm
  · simp only [List.mem_append, List.mem_cons] at hmem
    rcases hmem with hm | hm | hm | hm | hm
    · exact hsg ch (optSign_chars hs1 ch hm)
    · exact hnum ch (coef_numChar hc ch hm)
    · exact hx ch hm
    · exact hsg ch (sign_chars hs2 ch hm)
    · exact hnum ch (n_numChar hk ch hm)
  · simp only [List.mem_append, List.mem_singleton] at hmem
    rcases hmem with (hm | hm) | hm | hm | hm
    · exact hsg ch (optSign_chars hs1 ch hm)
    · exact hnum ch (n_numChar hk ch hm)
    · exact hsg ch (sign_chars hs2 ch hm)
    · exact hnum ch (coef_numChar hc ch hm)
    · exact hx ch hm

/-- C20: every character of a valid string is a space, a sign, the decimal point, a digit
or the lower-case x; so strings with an upper-case X, a tab, a newline (also a single
trailing newline) or any other character are rejected. -/
theorem isValid_alphabet (s : List Char) (h : IsValid s = true) :
    (∀ ch ∈ s, ch = ' ' ∨ ch = '+' ∨ ch = '-' ∨ ch = '.' ∨ digit ch = true ∨ ch = 'x') ∧
    IsValid "2X+3".toList = false ∧
    IsValid ("2x".toList ++ [Char.ofNat 9] ++ "+3".toList) = false ∧
    IsValid ("2x".toList ++ [Char.ofNat 10] ++ "+3".toList) = false ∧
    IsValid ("2x+3".toList ++ [Char.ofNat 10]) = false ∧
    IsValid "2x+3;".toList = false := by
  refine ⟨?_, by decide, by decide, by decide, by decide, by decide⟩
  intro ch hch
  by_cases hsp : ch = ' '
  · exact Or.inl hsp
  · right
    apply derives_chars ((isValid_iff_derives s).mp h)
    rw [removeSpaces_eq_filter, List.mem_filter]
    exact ⟨hch, by simpa using hsp⟩

/-- Witness of C20 at the valid string " 2x + 3.5". -/
theorem isValid_alphabet_witness :
    IsValid " 2x + 3.5".toList = true ∧
    ∀ ch ∈ " 2x + 3.5".toList,
      ch = ' ' ∨ ch = '+' ∨ ch = '-' ∨ ch = '.' ∨ digit ch = true ∨ ch = 'x' :=
  ⟨by decide, (isValid_alphabet " 2x + 3.5".toList (by decide)).1⟩

/-- Witness of C18 at "3 - 2x": slopeRx matches "-2x", and removing it leaves "3". -/
theorem slope_term_removed_once_witness :
    IsValid "3 - 2x".toList = true ∧
    slopeRx.FindStringSubmatch (removeSpaces "3 - 2x".toList) =
      ["-2x".toList, ['-'], ['2'], []] ∧
    ReplaceAll (removeSpaces "3 - 2x".toList) "-2x".toList [] = ['3'] ∧
    ∃ a sg c b, OptSign sg ∧ Coef c ∧
      removeSpaces "3 - 2x".toList = a ++ (sg ++ (c ++ ['x'])) ++ b ∧
      ((a = [] ∧ (b = [] ∨ ∃ s2 k, Sign s2 ∧ N k ∧ b = s2 ++ k)) ∨
        (b = [] ∧ Sign sg ∧ ∃ s1 k, OptSign s1 ∧ N k ∧ a = s1 ++ k)) ∧
      index (slopeRx.FindStringSubmatch (removeSpaces "3 - 2x".toList)) 0 =
        .ok (sg ++ (c ++ ['x'])) ∧
      List.count 'x' (removeSpaces "3 - 2x".toList) = 1 ∧
      (∀ a2 b2, removeSpaces "3 - 2x".toList = a2 ++ (sg ++ (c ++ ['x'])) ++ b2 →
        a2 = a ∧ b2 = b) ∧
      ReplaceAll (removeSpaces "3 - 2x".toList) (sg ++ (c ++ ['x'])) [] = a ++ b :=
  ⟨by decide, by decide, by decide, slope_term_removed_once "3 - 2x".toList (by decide)⟩

/-! ## The package with float64 arithmetic -/

/-- The value natOfDigits gives a digit string is its value in base ten, in the sense of
Nat.ofDigits (which takes the least significant digit first). -/
theorem natOfDigits_eq_ofDigits (ds : List Char) :
    natOfDigits ds = Nat.ofDigits 10 (ds.reverse.map fun c => c.toNat - 48) := by
  induction ds using List.reverseRecOn with
  | nil => rfl
  | append_singleton ds c ih =>
    rw [natOfDigits_append, ih]
    simp [natOfDigits, Nat.ofDigits_cons]
    ring

theorem newFromString64_eval_nil (str t m0 m1 m2 m3 : List Char) (hv : IsValid str = true)
    (ht : removeSpaces str = t) (hf : slopeRx.FindStringSubmatch t = [m0, m1, m2, m3])
    (hi : interceptRx.FindStringSubmatch (ReplaceAll t m0 []) = []) :
    Float64.NewFromString str = .ok ⟨withSign m1 (if m2 ≠ [] then Float64.ParseFloat m2
      else if m3 ≠ [] then Float64.ParseFloat m3 else F64.ofNat 1), F64.ofNat 0⟩ := by
  unfold Float64.NewFromString
  simp only [hv, ht, hf, hi, withSign, index]
  by_cases h2 : m2 = [] <;> by_cases h3 : m3 = [] <;>
    simp [h2, h3, hi, bind, Except.bind, pure, Except.pure]

theorem newFromString64_eval_cons (str t m0 m1 m2 m3 i0 i1 i2 : List Char)
    (hv : IsValid str = true)
    (ht : removeSpaces str = t) (hf : slopeRx.FindStringSubmatch t = [m0, m1, m2, m3])
    (hi : interceptRx.FindStringSubmatch (ReplaceAll t m0 []) = [i0, i1, i2]) :
    Float64.NewFromString str = .ok ⟨withSign m1 (if m2 ≠ [] then Float64.ParseFloat m2
      else if m3 ≠ [] then Float64.ParseFloat m3 else F64.ofNat 1),
      withSign i1 (Float64.ParseFloat i2)⟩ := by
  unfold Float64.NewFromString
  simp only [hv, ht, hf, hi, withSign, index]
  by_cases h2 : m2 = [] <;> by_cases h3 : m3 = [] <;>
    simp [h2, h3, hi, bind, Except.bind, pure, Except.pure]

theorem parseFloat64_n (k : List Char) (h : N k) : Float64.ParseFloat k = nearestF64 k := by
  rcases h with h | ⟨a, b, ha, hb, rfl⟩
  · have h1 : ∀ c ∈ k, (fun c => c != '.') c = true := fun c hc => digit_ne_dot (h.2 c hc)
    unfold Float64.ParseFloat nearestF64
    simp only [takeWhile_all digit k h.2, dropWhile_all digit k h.2, h.1, if_false]
    rw [List.filter_eq_self.mpr h1, dropWhile_all _ k h1]
    simp
  · have h1 : ∀ c ∈ a, (fun c => c != '.') c = true := fun c hc => digit_ne_dot (ha.2 c hc)
    have h2 : ∀ c ∈ b, (fun c => c != '.') c = true := fun c hc => digit_ne_dot (hb.2 c hc)
    unfold Float64.ParseFloat nearestF64
    simp only [takeWhile_append_stop digit a '.' b ha.2 digit_dot,
      dropWhile_append_stop digit a '.' b ha.2 digit_dot]
    rw [if_pos ⟨trivial, by rw [List.all_eq_true]; exact hb.2, Or.inl ha.1⟩,
      dropWhile_append_stop _ a '.' b h1 (by simp), List.filter_append,
      List.filter_eq_self.mpr h1, List.filter_cons_of_neg (by simp),
      List.filter_eq_self.mpr h2, natOfDigits_append]
    simp

theorem magnitude64_eq (c m2 m3 : List Char) (hc : Coef c)
    (h : (m2 = c ∧ m3 = []) ∨ (m2 = [] ∧ m3 = c)) :
    (if m2 ≠ [] then Float64.ParseFloat m2 else if m3 ≠ [] then Float64.ParseFloat m3
      else F64.ofNat 1) = coefF64 c := by
  have hp : c ≠ [] → Float64.ParseFloat c = nearestF64 c := by
    intro hne
    rcases hc with rfl | hc | hc
    · exact absurd rfl hne
    · exact parseFloat64_n c (Or.inl (posInt_digits hc))
    · exact parseFloat64_n c (Or.inr hc)
  unfold coefF64
  rcases h with ⟨rfl, rfl⟩ | ⟨rfl, rfl⟩
  · by_cases h : m2 = []
    · simp [h]
    · simp [h, hp h]
  · by_cases h : m3 = []
    · simp [h]
    · simp [h, hp h]

theorem newFromString64_slopeFirst_bare (str s1 c : List Char) (hs1 : OptSign s1)
    (hc : Coef c) (h : removeSpaces str = s1 ++ (c ++ ['x'])) :
    Float64.NewFromString str = .ok ⟨withSign s1 (coefF64 c), F64.ofNat 0⟩ := by
  have hv : IsValid str = true := by
    rw [isValid_iff_derives, h]
    exact Or.inl ⟨s1, c ++ ['x'], hs1, ⟨c, hc, rfl⟩, Or.inl rfl⟩
  obtain ⟨m2, m3, hf, hm⟩ := find_slope_slopeFirst s1 c [] hs1 hc
  have hr := replace_slopeFirst_bare s1 c hs1 hc
  rw [newFromString64_eval_nil str _ _ _ _ _ hv h hf (by rw [hr]; rfl),
    magnitude64_eq c m2 m3 hc hm]

theorem newFromString64_slopeFirst_const (str s1 c s2 k : List Char) (hs1 : OptSign s1)
    (hc : Coef c) (hs2 : Sign s2) (hk : N k)
    (h : removeSpaces str = s1 ++ (c ++ 'x' :: (s2 ++ k))) :
    Float64.NewFromString str = .ok ⟨withSign s1 (coefF64 c), withSign s2 (nearestF64 k)⟩ := by
  have hv : IsValid str = true := by
    rw [isValid_iff_derives, h]
    exact Or.inl ⟨s1, c ++ ['x'], hs1, ⟨c, hc, rfl⟩, Or.inr ⟨s2, k, hs2, hk, by simp⟩⟩
  obtain ⟨m2, m3, hf, hm⟩ := find_slope_slopeFirst s1 c (s2 ++ k) hs1 hc
  have hr := replace_slopeFirst_const s1 c s2 k hs1 hc hs2 hk
  rw [newFromString64_eval_cons str _ _ _ _ _ _ _ _ hv h hf
    (by rw [hr]; exact find_intercept s2 k (Or.inr hs2) hk), magnitude64_eq c m2 m3 hc hm,
    parseFloat64_n k hk]

theorem newFromString64_interceptFirst (str s1 k s2 c : List Char) (hs1 : OptSign s1)
    (hk : N k) (hs2 : Sign s2) (hc : Coef c)
    (h : removeSpaces str = (s1 ++ k) ++ (s2 ++ (c ++ ['x']))) :
    Float64.NewFromString str = .ok ⟨withSign s2 (coefF64 c), withSign s1 (nearestF64 k)⟩ := by
  have hv : IsValid str = true := by
    rw [isValid_iff_derives, h]
    exact Or.inr ⟨s1, k, s2, c ++ ['x'], hs1, hk, hs2, ⟨c, hc, rfl⟩, by simp⟩
  obtain ⟨m2, m3, hf, hm⟩ := find_slope_interceptFirst s1 k s2 c hs1 hk hs2 hc
  have hr := replace_interceptFirst s1 k s2 c hs1 hk hs2 hc
  rw [newFromString64_eval_cons str _ _ _ _ _ _ _ _ hv h hf
    (by rw [hr]; exact find_intercept s1 k hs1 hk), magnitude64_eq c m2 m3 hc hm,
    parseFloat64_n k hk]

set_option maxRecDepth 100000 in
set_option exponentiation.threshold 4096 in
/-- Range behaviour of the float64 model: 10^309 overflows to the infinity, the largest
finite value is (2^53 - 1) * 2^971 and the halfway point above it overflows, 10^-400
underflows to zero and the smallest subnormal is 2^-1074. -/
theorem f64_range_samples :
    F64.ofRatio false (10 ^ 309) 1 = .inf false ∧
    F64.ofRatio false (2 ^ 1024 - 2 ^ 970 - 1) 1 = .fin false 9007199254740991 971 ∧
    F64.ofRatio false (2 ^ 1024 - 2 ^ 970) 1 = .inf false ∧
    F64.ofRatio false 1 (10 ^ 400) = .fin false 0 (-1074) ∧
    F64.ofRatio false 3 (2 ^ 1076) = .fin false 1 (-1074) := by
  refine ⟨by decide, by decide, by decide, by decide, by decide⟩

theorem f64_eq_self (x : F64) : F64.eq x x = true ↔ x ≠ F64.nan := by
  cases x with
  | fin s m e => simp [F64.eq]
  | inf s => simp [F64.eq]
  | nan => simp [F64.eq]

set_option maxRecDepth 100000 in
/-- Sample roundings of the float64 model: 2^53 + 1 goes to 2^53 (a tie, to even), 2.3 to
5179139571476070 * 2^-51, 1/3 to 6004799503160661 * 2^-54, and 0.1 + 0.2 exceeds the
float64 of 0.3 by one unit in the last place. -/
theorem f64_rounding_samples :
    F64.ofRatio false 9007199254740993 1 = .fin false 4503599627370496 1 ∧
    F64.ofRatio false 23 10 = .fin false 5179139571476070 (-51) ∧
    F64.ofRatio false 1 3 = .fin false 6004799503160661 (-54) ∧
    F64.add (F64.ofRatio false 1 10) (F64.ofRatio false 2 10) =
      .fin false 5404319552844596 (-54) ∧
    F64.ofRatio false 3 10 = .fin false 5404319552844595 (-54) ∧
    F64.ofNat 1 = .fin false 4503599627370496 (-52) ∧
    F64.ofNat 0 = .fin false 0 (-1074) := by
  refine ⟨by decide, by decide, by decide, by decide, by decide, by decide, by decide⟩

/-- C1 (amended): intercept-first shape with float64 values. For an optional sign s1, a
constant k, a mandatory sign s2 and a coefficient c, NewFromString (s1 ++ k ++ s2 ++ c ++ "x")
returns the function whose slope is the float64 nearest to val c (1 for the empty c),
multiplied by -1 when s2 is the minus sign, and whose intercept is the float64 nearest to
the value of k, multiplied by -1 when s1 is the minus sign. -/
theorem newFromString64_interceptFirst_shape (s1 k s2 c : List Char) (hs1 : OptSign s1)
    (hk : N k) (hs2 : Sign s2) (hc : Coef c) :
    Float64.NewFromString (s1 ++ k ++ s2 ++ c ++ ['x']) =
      .ok ⟨withSign s2 (coefF64 c), withSign s1 (nearestF64 k)⟩ := by
  have e : s1 ++ k ++ s2 ++ c ++ ['x'] = (s1 ++ k) ++ (s2 ++ (c ++ ['x'])) := by simp
  have hsp : removeSpaces ((s1 ++ k) ++ (s2 ++ (c ++ ['x']))) =
      (s1 ++ k) ++ (s2 ++ (c ++ ['x'])) := by
    apply removeSpaces_of_not_mem
    intro hm
    rcases List.mem_append.mp hm with hm | hm
    · exact no_space_sign_n s1 k hs1 hk hm
    · exact no_space_sign_coef_x s2 c (Or.inr hs2) hc hm
  rw [e, newFromString64_interceptFirst _ s1 k s2 c hs1 hk hs2 hc hsp]

set_option maxRecDepth 100000 in
/-- Witness of the amended C1 at "3-x": the slope is the float64 -1 and the intercept the
float64 3. -/
theorem newFromString64_interceptFirst_shape_witness :
    Float64.NewFromString "3-x".toList =
      .ok ⟨.fin true 4503599627370496 (-52), .fin false 6755399441055744 (-51)⟩ ∧
    (F64.fin true 4503599627370496 (-52)).toRat? = some (-1) ∧
    (F64.fin false 6755399441055744 (-51)).toRat? = some 3 := by
  have d3 : Digits ['3'] := ⟨by decide, by decide⟩
  have h := newFromString64_interceptFirst_shape [] ['3'] ['-'] [] (Or.inl rfl) (Or.inl d3)
    (Or.inr rfl) (Or.inl rfl)
  have v1 : withSign ['-'] (coefF64 []) = .fin true 4503599627370496 (-52) := by decide
  have v2 : withSign [] (nearestF64 ['3']) = .fin false 6755399441055744 (-51) := by decide
  rw [v1, v2] at h
  refine ⟨h, ?_, ?_⟩
  · simp only [F64.toRat?]
    norm_num
  · simp only [F64.toRat?]
    norm_num

set_option maxRecDepth 100000 in
/-- C1 refuted as stated: for "-1.5-2.3x" the claim gives the slope -2.3, that is -23/10,
but the float64 returned is -5179139571476070 * 2^-51, which is not -23/10. -/
theorem newFromString64_slope_not_exact :
    Float64.NewFromString "-1.5-2.3x".toList =
      .ok ⟨.fin true 5179139571476070 (-51), .fin true 6755399441055744 (-52)⟩ ∧
    sgn ['-'] * val ['2', '.', '3'] = -23 / 10 ∧
    (F64.fin true 5179139571476070 (-51)).toRat? ≠ some (sgn ['-'] * val ['2', '.', '3']) := by
  have d1 : Digits ['1'] := ⟨by decide, by decide⟩
  have d2 : Digits ['2'] := ⟨by decide, by decide⟩
  have d3 : Digits ['3'] := ⟨by decide, by decide⟩
  have d5 : Digits ['5'] := ⟨by decide, by decide⟩
  have h := newFromString64_interceptFirst "-1.5-2.3x".toList ['-'] ['1', '.', '5'] ['-']
    ['2', '.', '3'] (Or.inr (Or.inr rfl)) (Or.inr ⟨['1'], ['5'], d1, d5, rfl⟩) (Or.inr rfl)
    (Or.inr (Or.inr ⟨['2'], ['3'], d2, d3, rfl⟩)) (by decide)
  have v1 : withSign ['-'] (coefF64 ['2', '.', '3']) = .fin true 5179139571476070 (-51) := by
    decide
  have v2 : withSign ['-'] (nearestF64 ['1', '.', '5']) = .fin true 6755399441055744 (-52) := by
    decide
  rw [v1, v2] at h
  have hv : sgn ['-'] * val ['2', '.', '3'] = -23 / 10 := by
    have h23 := decimalValue_decimal ['2'] ['3'] d2 d3
    rw [show natOfDigits ['2'] = 2 from by decide, show natOfDigits ['3'] = 3 from by decide]
      at h23
    have : val ['2', '.', '3'] = 23 / 10 := by
      rw [val, if_neg (by simp)]
      exact h23.trans (by norm_num)
    rw [this]
    norm_num [sgn]
  refine ⟨h, hv, ?_⟩
  rw [hv]
  simp only [F64.toRat?, ne_eq, Option.some.injEq]
  norm_num

/-- C2 (amended): slope-first shape with float64 values. For an optional sign s1 and a
coefficient c, NewFromString (s1 ++ c ++ "x") has as slope the float64 nearest to val c
(1 for the empty c), multiplied by -1 when s1 is the minus sign, and intercept 0; with a
constant term s2 ++ k appended the slope is the same and the intercept is the float64
nearest to the value of k, multiplied by -1 when s2 is the minus sign. -/
theorem newFromString64_slopeFirst_shape (s1 c : List Char) (hs1 : OptSign s1)
    (hc : Coef c) :
    Float64.NewFromString (s1 ++ c ++ ['x']) = .ok ⟨withSign s1 (coefF64 c), F64.ofNat 0⟩ ∧
    ∀ s2 k, Sign s2 → N k →
      Float64.NewFromString (s1 ++ c ++ ['x'] ++ s2 ++ k) =
        .ok ⟨withSign s1 (coefF64 c), withSign s2 (nearestF64 k)⟩ := by
  constructor
  · have e : s1 ++ c ++ ['x'] = s1 ++ (c ++ ['x']) := by simp
    have hsp : removeSpaces (s1 ++ (c ++ ['x'])) = s1 ++ (c ++ ['x']) :=
      removeSpaces_of_not_mem _ (no_space_sign_coef_x s1 c hs1 hc)
    rw [e, newFromString64_slopeFirst_bare _ s1 c hs1 hc hsp]
  · intro s2 k hs2 hk
    have e : s1 ++ c ++ ['x'] ++ s2 ++ k = s1 ++ (c ++ 'x' :: (s2 ++ k)) := by simp
    have hsp : removeSpaces (s1 ++ (c ++ 'x' :: (s2 ++ k))) = s1 ++ (c ++ 'x' :: (s2 ++ k)) := by
      apply removeSpaces_of_not_mem
      intro hm
      have e2 : s1 ++ (c ++ 'x' :: (s2 ++ k)) = (s1 ++ (c ++ ['x'])) ++ (s2 ++ k) := by simp
      rw [e2] at hm
      rcases List.mem_append.mp hm with hm | hm
      · exact no_space_sign_coef_x s1 c hs1 hc hm
      · exact no_space_sign_n s2 k (Or.inr hs2) hk hm
    rw [e, newFromString64_slopeFirst_const _ s1 c s2 k hs1 hc hs2 hk hsp]

set_option maxRecDepth 100000 in
/-- Witness of the amended C2 at "3x" (slope 3, intercept 0) and "-20x-3" (slope -20,
intercept -3). -/
theorem newFromString64_slopeFirst_shape_witness :
    Float64.NewFromString "3x".toList =
      .ok ⟨.fin false 6755399441055744 (-51), .fin false 0 (-1074)⟩ ∧
    Float64.NewFromString "-20x-3".toList =
      .ok ⟨.fin true 5629499534213120 (-48), .fin true 6755399441055744 (-51)⟩ ∧
    (F64.fin false 6755399441055744 (-51)).toRat? = some 3 ∧
    (F64.fin true 5629499534213120 (-48)).toRat? = some (-20) ∧
    (F64.fin true 6755399441055744 (-51)).toRat? = some (-3) := by
  have d3 : Digits ['3'] := ⟨by decide, by decide⟩
  have p3 : PosInt ['3'] := ⟨'3', [], by decide, by decide, rfl⟩
  have p20 : PosInt ['2', '0'] := ⟨'2', ['0'], by decide, by decide, rfl⟩
  have h1 := (newFromString64_slopeFirst_shape [] ['3'] (Or.inl rfl) (Or.inr (Or.inl p3))).1
  have h2 := (newFromString64_slopeFirst_shape ['-'] ['2', '0'] (Or.inr (Or.inr rfl))
    (Or.inr (Or.inl p20))).2 ['-'] ['3'] (Or.inr rfl) (Or.inl d3)
  have v1 : withSign [] (coefF64 ['3']) = .fin false 6755399441055744 (-51) := by decide
  have v2 : withSign ['-'] (coefF64 ['2', '0']) = .fin true 5629499534213120 (-48) := by decide
  have v3 : withSign ['-'] (nearestF64 ['3']) = .fin true 6755399441055744 (-51) := by decide
  have v0 : F64.ofNat 0 = .fin false 0 (-1074) := by decide
  rw [v1, v0] at h1
  rw [v2, v3] at h2
  refine ⟨h1, h2, ?_, ?_, ?_⟩ <;>
  · simp only [F64.toRat?]
    norm_num

set_option maxRecDepth 100000 in
/-- C2 refuted as stated: for "9007199254740993x" the claim gives the slope
9007199254740993 (2^53 + 1), but the float64 returned is 2^53 = 9007199254740992. -/
theorem newFromString64_slope_rounded :
    Float64.NewFromString "9007199254740993x".toList =
      .ok ⟨.fin false 4503599627370496 1, .fin false 0 (-1074)⟩ ∧
    sgn [] * val "9007199254740993".toList = 9007199254740993 ∧
    (F64.fin false 4503599627370496 1).toRat? = some 9007199254740992 ∧
    (F64.fin false 4503599627370496 1).toRat? ≠
      some (sgn [] * val "9007199254740993".toList) := by
  have p : PosInt "9007199254740993".toList :=
    ⟨'9', "007199254740993".toList, by decide, by decide, rfl⟩
  have h := newFromString64_slopeFirst_bare "9007199254740993x".toList []
    "9007199254740993".toList (Or.inl rfl) (Or.inr (Or.inl p)) (by decide)
  have v1 : withSign [] (coefF64 "9007199254740993".toList) =
      .fin false 4503599627370496 1 := by decide
  have v0 : F64.ofNat 0 = .fin false 0 (-1074) := by decide
  rw [v1, v0] at h
  have hv : sgn [] * val "9007199254740993".toList = 9007199254740993 := by
    rw [val, if_neg (by decide), decimalValue_digits _ (posInt_digits p),
      show natOfDigits "9007199254740993".toList = 9007199254740993 from by decide]
    norm_num [sgn]
  have ht : (F64.fin false 4503599627370496 1).toRat? = some 9007199254740992 := by
    simp only [F64.toRat?]
    norm_num
  refine ⟨h, hv, ht, ?_⟩
  rw [hv, ht]
  norm_num

set_option maxRecDepth 100000 in
set_option exponentiation.threshold 4096 in
/-- C17 (amended): for every LinearFunction, Root and XFromY(0) are the same float64
value, the float64 quotient (0 - intercept) / slope; under the comparison == they are
equal exactly when that value is not NaN. For the parsed "2x+4" the value is -2. -/
theorem root64_eq_xFromY_zero (lf : Float64.LinearFunction) :
    lf.Root = lf.XFromY (F64.ofNat 0) ∧
    lf.XFromY (F64.ofNat 0) = F64.div (F64.sub (F64.ofNat 0) lf.intercept) lf.slope ∧
    (F64.eq lf.Root (lf.XFromY (F64.ofNat 0)) = true ↔ lf.Root ≠ F64.nan) ∧
    (Float64.NewFromString "2x+4".toList =
        .ok ⟨.fin false 4503599627370496 (-51), .fin false 4503599627370496 (-50)⟩ ∧
      (⟨.fin false 4503599627370496 (-51), .fin false 4503599627370496 (-50)⟩ :
        Float64.LinearFunction).Root = .fin true 4503599627370496 (-51) ∧
      (F64.fin true 4503599627370496 (-51)).toRat? = some (-2)) := by
  refine ⟨rfl, rfl, f64_eq_self _, ?_, by decide, ?_⟩
  · have d4 : Digits ['4'] := ⟨by decide, by decide⟩
    have p2 : PosInt ['2'] := ⟨'2', [], by decide, by decide, rfl⟩
    have h := newFromString64_slopeFirst_const "2x+4".toList [] ['2'] ['+'] ['4'] (Or.inl rfl)
      (Or.inr (Or.inl p2)) (Or.inl rfl) (Or.inl d4) (by decide)
    have v1 : withSign [] (coefF64 ['2']) = .fin false 4503599627370496 (-51) := by decide
    have v2 : withSign ['+'] (nearestF64 ['4']) = .fin false 4503599627370496 (-50) := by decide
    rw [v1, v2] at h
    exact h
  · simp only [F64.toRat?]
    norm_num

set_option maxRecDepth 100000 in
/-- C17 refuted as stated: the valid string "0.0x" parses to slope 0 and intercept 0, for
which Root and XFromY(0) are both (0 - 0) / 0 = NaN, and NaN is not equal to NaN under
the comparison ==. -/
theorem root64_not_equal_on_nan :
    Float64.NewFromString "0.0x".toList =
      .ok ⟨.fin false 0 (-1074), .fin false 0 (-1074)⟩ ∧
    (⟨.fin false 0 (-1074), .fin false 0 (-1074)⟩ : Float64.LinearFunction).Root = F64.nan ∧
    F64.eq (⟨.fin false 0 (-1074), .fin false 0 (-1074)⟩ : Float64.LinearFunction).Root
      ((⟨.fin false 0 (-1074), .fin false 0 (-1074)⟩ : Float64.LinearFunction).XFromY
        (F64.ofNat 0)) = false := by
  have d0 : Digits ['0'] := ⟨by decide, by decide⟩
  have hc : Coef ['0', '.', '0'] := Or.inr (Or.inr ⟨['0'], ['0'], d0, d0, rfl⟩)
  have h := newFromString64_slopeFirst_bare "0.0x".toList [] ['0', '.', '0'] (Or.inl rfl) hc
    (by decide)
  have v1 : withSign [] (coefF64 ['0', '.', '0']) = .fin false 0 (-1074) := by decide
  have v0 : F64.ofNat 0 = .fin false 0 (-1074) := by decide
  rw [v1, v0] at h
  exact ⟨h, by decide, by decide⟩

end Linearfunction
